import Mathlib

/-!
Verification development for the KiCad schematic/board document-model excerpt
(include/class_board_item.h and include/class_sch_screen.h).

The development shallowly embeds the data model and the operations of the two
headers.  Operations whose bodies are given inline in the headers (SetLayer,
GetLayer, the Move/Rotate/Flip defaults, DeleteStructure, IsOnLayer) are
translated directly from the source.  Operations that the headers only declare
(their bodies live in translation units outside this excerpt) are modelled from
the specification text, as indicated in each doc comment.

The file is organised as definitions first, then the theorems.
-/

namespace KiCad

/-! ## BOARD_ITEM (class_board_item.h) -/

/-- Shallow state of a BOARD_ITEM: the protected m_Layer field (LAYER_NUM is an
integer type), plus the position, the EDA_ITEM flags word and the dynamic class
name that GetClass() reports. -/
structure BOARD_ITEM where
  m_Layer : Int
  m_Pos : Int × Int
  m_Flags : Nat
  m_Class : String
deriving DecidableEq, Repr

/-- GetClass, as used by the Move/Rotate/Flip defaults for the dialog caption. -/
def BOARD_ITEM.GetClass (it : BOARD_ITEM) : String :=
  it.m_Class

/-- Function GetLayer returns the layer this item is on (source: return m_Layer). -/
def BOARD_ITEM.GetLayer (it : BOARD_ITEM) : Int :=
  it.m_Layer

/-- Function SetLayer sets the layer this item is on.  The source body is the
single assignment m_Layer = aLayer; the wxASSERT that would trap invalid layers
is commented out, so no validation, clamping or rejection happens. -/
def BOARD_ITEM.SetLayer (it : BOARD_ITEM) (aLayer : Int) : BOARD_ITEM :=
  { it with m_Layer := aLayer }

/-- Function IsOnLayer tests to see if this object is on the given layer. -/
def BOARD_ITEM.IsOnLayer (it : BOARD_ITEM) (aLayer : Int) : Bool :=
  it.m_Layer == aLayer

/-- An observable user-interface side effect.  The default geometric transforms
pop up a wxMessageBox, which we record as an explicit event. -/
inductive UIEvent where
  | messageBox (text : String) (caption : String)
deriving DecidableEq, Repr

/-- Function Move, the base-class default: it shows the error dialog
"virtual BOARD_ITEM::Move used, should not occur" and leaves the item alone. -/
def BOARD_ITEM.Move (it : BOARD_ITEM) (aMoveVector : Int × Int) :
    BOARD_ITEM × List UIEvent :=
  (it, [UIEvent.messageBox ("virtual BOARD_ITEM::Move used, should not occur") it.GetClass])

/-- Function Rotate, the base-class default: error dialog, no state change. -/
def BOARD_ITEM.Rotate (it : BOARD_ITEM) (aRotCentre : Int × Int) (aAngle : Int) :
    BOARD_ITEM × List UIEvent :=
  (it, [UIEvent.messageBox ("virtual BOARD_ITEM::Rotate used, should not occur") it.GetClass])

/-- Function Flip, the base-class default: error dialog, no state change. -/
def BOARD_ITEM.Flip (it : BOARD_ITEM) (aCentre : Int × Int) :
    BOARD_ITEM × List UIEvent :=
  (it, [UIEvent.messageBox ("virtual BOARD_ITEM::Flip used, should not occur") it.GetClass])

/-! ## UnLink / DeleteStructure

DeleteStructure is given inline in the header: UnLink(); delete this;.
UnLink itself is only declared there, so its effect is modelled from the spec:
it removes the item from its owning Document Item List internal linkage without
destroying it, and is safe (a no-op) on an already-detached item.  A world
holds the DLIST linkages of every list and the set of live (not yet destroyed)
items, with items named by numeric ids. -/

/-- One DLIST: the ordered linkage of item ids it owns. -/
structure DLIST where
  items : List Nat
deriving DecidableEq, Repr

/-- A world of doubly-linked lists plus the set of live item objects. -/
structure BoardWorld where
  lists : List DLIST
  alive : List Nat
deriving DecidableEq, Repr

/-- Modelled from the spec: Function UnLink detaches this object from its owner.
It removes the item from every list linkage that references it and destroys
nothing; on an already-detached item it changes nothing. -/
def UnLink (w : BoardWorld) (i : Nat) : BoardWorld :=
  { w with lists := w.lists.map (fun d => ⟨d.items.filter (fun j => j ≠ i)⟩) }

/-- Destruction of the object (the delete this step): the item stops being live. -/
def destroyItem (w : BoardWorld) (i : Nat) : BoardWorld :=
  { w with alive := w.alive.filter (fun j => j ≠ i) }

/-- Function DeleteStructure deletes this object after UnLink()ing it from its
owner (source body: UnLink(); delete this;). -/
def DeleteStructure (w : BoardWorld) (i : Nat) : BoardWorld :=
  destroyItem (UnLink w i) i

/-- An item is detached when no list linkage references it. -/
def Detached (w : BoardWorld) (i : Nat) : Prop :=
  ∀ d ∈ w.lists, i ∉ d.items

instance (w : BoardWorld) (i : Nat) : Decidable (Detached w i) := by
  unfold Detached; infer_instance

/-! ## Undo/redo containers and ClearUndoORRedoList (class_sch_screen.h)

The spec mandates a tagged command-entry representation: a deletion entry owns
the removed item (a deleted-item placeholder); a modification entry borrows a
reference to the live item and owns only a plain state snapshot; a creation
entry borrows a reference.  Items are named by numeric ids, snapshots are plain
data. -/

inductive UndoEntry where
  | deletedItem (item : Nat)
  | modified (ref : Nat) (snapshot : Nat)
  | created (ref : Nat)
deriving DecidableEq, Repr

/-- PICKED_ITEMS_LIST: one undo/redo command, an ordered list of entries. -/
structure PICKED_ITEMS_LIST where
  entries : List UndoEntry
deriving DecidableEq, Repr

/-- UNDO_REDO_CONTAINER: the stack of commands, oldest at the front. -/
structure UNDO_REDO_CONTAINER where
  commands : List PICKED_ITEMS_LIST
deriving DecidableEq, Repr

/-- The items a single command owns exclusively: its deleted-item placeholders. -/
def deletedItemsOfCommand (c : PICKED_ITEMS_LIST) : List Nat :=
  c.entries.filterMap (fun e =>
    match e with
    | UndoEntry.deletedItem i => some i
    | UndoEntry.modified _ _ => none
    | UndoEntry.created _ => none)

/-- The deleted-item placeholders owned by a whole command list. -/
def deletedItemsOfList (cmds : List PICKED_ITEMS_LIST) : List Nat :=
  cmds.flatMap deletedItemsOfCommand

/-- The front-trimming loop: remove (up to) n commands from the front of the
stack, destroying the items each removed command owned; return the remaining
stack and the destroyed items. -/
def clearFront : List PICKED_ITEMS_LIST → Nat → List PICKED_ITEMS_LIST × List Nat
  | cmds, 0 => (cmds, [])
  | [], _ + 1 => ([], [])
  | c :: rest, n + 1 =>
    let r := clearFront rest n
    (r.1, deletedItemsOfCommand c ++ r.2)

/-- Modelled from the spec: SCH_SCREEN::ClearUndoORRedoList frees aItemCount
commands from the front of the container (all of them when aItemCount is
negative).  Wrappers are deleted; an item is destroyed exactly when a removed
entry held it exclusively (a deleted-item placeholder); items still live in the
schematic are never destroyed or modified.  Returns the cleared container and
the list of destroyed items. -/
def ClearUndoORRedoList (aList : UNDO_REDO_CONTAINER) (aItemCount : Int) :
    UNDO_REDO_CONTAINER × List Nat :=
  let icnt : Nat := if aItemCount < 0 then aList.commands.length else aItemCount.toNat
  let r := clearFront aList.commands icnt
  (⟨r.1⟩, r.2)

/-! ## SCH_SCREEN state and Save -/

/-- A schematic item as the Save boundary sees it: identity, anchor, layer. -/
structure SCH_ITEM where
  m_TimeStamp : Nat
  m_Pos : Int × Int
  m_Layer : Int
deriving DecidableEq, Repr

/-- SCH_SCREEN in-memory state: the ordered draw-item sequence and the two
undo/redo logs. -/
structure SCH_SCREEN where
  drawItems : List SCH_ITEM
  undoList : UNDO_REDO_CONTAINER
  redoList : UNDO_REDO_CONTAINER
deriving DecidableEq, Repr

/-- The textual line Save emits for one item. -/
def itemLine (it : SCH_ITEM) : String :=
  toString it.m_TimeStamp ++ " " ++ toString it.m_Pos.1 ++ " " ++
    toString it.m_Pos.2 ++ " " ++ toString it.m_Layer

/-- A FILE sink that accepts only a bounded number of further lines; writing
past the capacity is the modelled I/O failure. -/
structure FileSink where
  written : List String
  capacity : Nat
deriving DecidableEq, Repr

/-- Modelled from the spec: SCH_SCREEN::Save writes the data structures for the
screen to aFile in item order and returns true on success and false on an I/O
failure.  The method is declared const in the header: the in-memory screen
state is returned untouched in every outcome. -/
def Save (scr : SCH_SCREEN) (aFile : FileSink) : Bool × SCH_SCREEN × FileSink :=
  let lines := scr.drawItems.map itemLine
  if lines.length ≤ aFile.capacity then
    (true, scr, ⟨aFile.written ++ lines, aFile.capacity - lines.length⟩)
  else
    (false, scr, ⟨aFile.written ++ lines.take aFile.capacity, 0⟩)

/-! ## Draw-list membership and ownership (C8)

A world of draw lists, one per screen, holding item ids.  AddToDrawList has the
spec precondition that the item belongs to no list yet; the model rejects a
violating add, so that the ownership invariant holds for arbitrary operation
sequences. -/

/-- True when some draw list in the world already owns the item. -/
def ownedAnywhere (st : List (List Nat)) (i : Nat) : Bool :=
  st.any (fun l => l.contains i)

/-- Modelled from the spec: SCH_SCREEN::AddToDrawList appends the item to the
screen draw list; the item must not already belong to any list (a violating
call is rejected). -/
def AddToDrawList (st : List (List Nat)) (s i : Nat) : List (List Nat) :=
  if ownedAnywhere st i then st
  else st.set s ((st.getD s []) ++ [i])

/-- Modelled from the spec: SCH_SCREEN::RemoveFromDrawList unlinks the item
from the screen draw list without destroying it. -/
def RemoveFromDrawList (st : List (List Nat)) (s i : Nat) : List (List Nat) :=
  st.set s ((st.getD s []).filter (fun j => j ≠ i))

/-- SCH_SCREEN::CheckIfOnDrawList: the linear membership test. -/
def CheckIfOnDrawList (st : List (List Nat)) (s i : Nat) : Bool :=
  (st.getD s []).contains i

inductive DrawOp where
  | add (screen : Nat) (item : Nat)
  | remove (screen : Nat) (item : Nat)
deriving DecidableEq, Repr

def execDrawOp (st : List (List Nat)) : DrawOp → List (List Nat)
  | DrawOp.add s i => AddToDrawList st s i
  | DrawOp.remove s i => RemoveFromDrawList st s i

def runDrawOps (st : List (List Nat)) (ops : List DrawOp) : List (List Nat) :=
  ops.foldl execDrawOp st

/-- A fresh world of n screens with empty draw lists. -/
def emptyScreens (n : Nat) : List (List Nat) :=
  List.replicate n []

/-! ## Sheet Registry: SCH_SCREENS (C4, C10)

Screens are named by numeric ids.  A hierarchical design is a finite tree of
sheet nodes, each referencing a screen.  The registry is the list m_screens. -/

/-- Max number of sheets in a hierarchy project (macro NB_MAX_SHEET). -/
def NB_MAX_SHEET : Nat := 500

/-- A hierarchical design: the root sheet and its nested subsheets. -/
inductive SheetTree where
  | node (screenId : Nat) (subsheets : List SheetTree)

/-- Modelled from the spec: SCH_SCREENS::AddScreenToList registers a screen,
deduplicating by identity: a screen already present is not added again. -/
def AddScreenToList (screens : List Nat) (aScreen : Nat) : List Nat :=
  if aScreen ∈ screens then screens else screens ++ [aScreen]

/-- The preorder stream of screens encountered while walking the hierarchy. -/
def encounters : SheetTree → List Nat
  | SheetTree.node sid subs => sid :: (subs.attach.map (fun t => encounters t.1)).flatten
termination_by t => sizeOf t
decreasing_by
  have h := List.sizeOf_lt_of_mem t.2
  simp only [SheetTree.node.sizeOf_spec]
  omega

/-- Modelled from the spec: SCH_SCREENS::BuildScreenList walks the design from
the root and registers every encountered screen through AddScreenToList. -/
def BuildScreenList (aItem : SheetTree) : List Nat :=
  (encounters aItem).foldl AddScreenToList []

/-- A linear hierarchy of n plus one nested sheets with distinct screens. -/
def chainTree : Nat → SheetTree
  | 0 => SheetTree.node 0 []
  | n + 1 => SheetTree.node (n + 1) [chainTree n]

/-! ## ReplaceDuplicateTimeStamps (C3)

A hierarchy is the registry list of screens, each screen contributing the time
stamps of its sheet and component objects in traversal order. -/

/-- The largest time stamp present, used as the base for fresh stamps. -/
def maxStamp (l : List Nat) : Nat :=
  l.foldr max 0

/-- One screen scan: every stamp already seen is replaced by the next fresh
stamp.  Returns the rewritten stamps, the seen accumulator, the next fresh
stamp and the number of replacements. -/
def replaceDups : List Nat → List Nat → Nat → List Nat × List Nat × Nat × Nat
  | [], seen, fresh => ([], seen, fresh, 0)
  | t :: ts, seen, fresh =>
    if t ∈ seen then
      let r := replaceDups ts (fresh :: seen) (fresh + 1)
      (fresh :: r.1, r.2.1, r.2.2.1, r.2.2.2 + 1)
    else
      let r := replaceDups ts (t :: seen) fresh
      (t :: r.1, r.2.1, r.2.2.1, r.2.2.2)

/-- The hierarchy-wide scan threading the seen set through every screen. -/
def replaceScreens : List (List Nat) → List Nat → Nat →
    List (List Nat) × List Nat × Nat × Nat
  | [], seen, fresh => ([], seen, fresh, 0)
  | s :: ss, seen, fresh =>
    let r := replaceDups s seen fresh
    let r2 := replaceScreens ss r.2.1 r.2.2.1
    (r.1 :: r2.1, r2.2.1, r2.2.2.1, r.2.2.2 + r2.2.2.2)

/-- Modelled from the spec: SCH_SCREENS::ReplaceDuplicateTimeStamps scans every
sheet and component in the hierarchy in traversal order, reassigns a fresh,
globally-unique stamp to every occurrence whose stamp was already seen (all but
the first occurrence of each duplicated stamp), and returns the rewritten
hierarchy together with the number of replacements. -/
def ReplaceDuplicateTimeStamps (screens : List (List Nat)) : List (List Nat) × Nat :=
  let r := replaceScreens screens [] (maxStamp screens.flatten + 1)
  (r.1, r.2.2.2)

/-- Reference count of the duplicate occurrences in a traversal stream: the
positions whose stamp already occurred earlier (or in the initial seen set). -/
def dupCount : List Nat → List Nat → Nat
  | [], _ => 0
  | t :: ts, seen => (if t ∈ seen then 1 else 0) + dupCount ts (t :: seen)

/-! ## Connectivity Engine: SchematicCleanUp (C2)

The engine is modelled from the spec over Manhattan geometry.  A wire with
horiz true lies on the horizontal line y = c and spans x from a to b; with
horiz false it lies on the vertical line x = c and spans y from a to b.
Junctions and marks (pins, labels) are connection targets; other objects take
no part in the cleanup.  Cleanup rebuilds the unselected wires of each line as
the maximal spans of their union, split at every connection point strictly
inside a span: a point carrying a junction or mark, or touched or crossed by a
perpendicular wire.  Merging two spans touching end to end thus happens exactly
when no third connection lives at the touch point, and a touch or crossing
strictly inside a span always splits it. -/

/-- A schematic object seen by the cleanup engine. -/
inductive SchObj where
  | wire (horiz : Bool) (c : Int) (a : Int) (b : Int) (sel : Bool)
  | junction (x : Int) (y : Int)
  | mark (x : Int) (y : Int)
  | other (tag : Nat)
deriving DecidableEq, Repr

/-- True on the objects the cleanup never rebuilds: non-wires, selected wires. -/
def isInert : SchObj → Bool
  | SchObj.wire _ _ _ _ s => s
  | SchObj.junction _ _ => true
  | SchObj.mark _ _ => true
  | SchObj.other _ => true

/-- Objects the cleanup never rebuilds: non-wires and selected wires. -/
def inertPart (l : List SchObj) : List SchObj :=
  l.filter isInert

/-- The span view of an unselected wire of direction d: (line, lo, hi). -/
def toWire (d : Bool) : SchObj → Option (Int × Int × Int)
  | SchObj.wire d2 c a b s =>
    if d2 = d ∧ s = false then some (c, min a b, max a b) else none
  | SchObj.junction _ _ => none
  | SchObj.mark _ _ => none
  | SchObj.other _ => none

/-- The unselected wires of direction d, each as (line, lo, hi) with lo ≤ hi. -/
def wiresOn (l : List SchObj) (d : Bool) : List (Int × Int × Int) :=
  l.filterMap (toWire d)

/-- Sorted duplicate-free version of a coordinate list. -/
def sortedDedup (xs : List Int) : List Int :=
  (xs.insertionSort (· ≤ ·)).dedup

/-- The distinct lines of direction d carrying unselected wires. -/
def linesOf (l : List SchObj) (d : Bool) : List Int :=
  sortedDedup ((wiresOn l d).map (fun w => w.1))

/-- Comparison of spans by left endpoint. -/
def leFst (p q : Int × Int) : Prop := p.1 ≤ q.1

instance : DecidableRel leFst :=
  fun p q => inferInstanceAs (Decidable (p.1 ≤ q.1))

instance : IsTotal (Int × Int) leFst :=
  ⟨fun p q => Int.le_total p.1 q.1⟩

instance : IsTrans (Int × Int) leFst :=
  ⟨fun _ _ _ h1 h2 => le_trans h1 h2⟩

/-- The spans of the unselected d-wires on line c, sorted by left endpoint. -/
def intervalsAt (l : List SchObj) (d : Bool) (c : Int) : List (Int × Int) :=
  ((wiresOn l d).filterMap
    (fun w => if w.1 = c then some (w.2.1, w.2.2) else none)).insertionSort leFst

/-- The merge sweep over spans sorted by left endpoint: overlapping or
end-to-end touching spans collapse into maximal spans. -/
def sweepAux : Int × Int → List (Int × Int) → List (Int × Int)
  | cur, [] => [cur]
  | cur, nxt :: rest =>
    if nxt.1 ≤ cur.2 then sweepAux (cur.1, max cur.2 nxt.2) rest
    else cur :: sweepAux nxt rest

def sweep : List (Int × Int) → List (Int × Int)
  | [] => []
  | x :: xs => sweepAux x xs

/-- Split one span at the given interior cut coordinates (in ascending order). -/
def splitInterval : Int → Int → List Int → List (Int × Int)
  | a, b, [] => [(a, b)]
  | a, b, x :: xs => (a, x) :: splitInterval x b xs

/-- The candidate cut coordinates on the d-line at level c: positions of
junctions and marks lying on the line, and perpendicular wires, selected or
not, whose span reaches the line. -/
def toCut (d : Bool) (c : Int) : SchObj → Option Int
  | SchObj.junction x y =>
    if d then (if y = c then some x else none) else (if x = c then some y else none)
  | SchObj.mark x y =>
    if d then (if y = c then some x else none) else (if x = c then some y else none)
  | SchObj.wire d2 c2 a b _ =>
    if d2 = !d ∧ min a b ≤ c ∧ c ≤ max a b then some c2 else none
  | SchObj.other _ => none

def cutCands (l : List SchObj) (d : Bool) (c : Int) : List Int :=
  l.filterMap (toCut d c)

/-- The cut coordinates strictly inside the span (lo, hi), sorted, distinct. -/
def cutsIn (l : List SchObj) (d : Bool) (c lo hi : Int) : List Int :=
  sortedDedup ((cutCands l d c).filter (fun x => lo < x ∧ x < hi))

/-- The normalized spans of direction d on line c: maximal spans of the union
of the unselected spans, each split at the connection points strictly inside. -/
def piecesAt (l : List SchObj) (d : Bool) (c : Int) : List (Int × Int) :=
  (sweep (intervalsAt l d c)).flatMap
    (fun ab => splitInterval ab.1 ab.2 (cutsIn l d c ab.1 ab.2))

/-- The rebuilt unselected wires of direction d, line by line. -/
def rebuiltWires (l : List SchObj) (d : Bool) : List SchObj :=
  (linesOf l d).flatMap (fun c =>
    (piecesAt l d c).map (fun ab => SchObj.wire d c ab.1 ab.2 false))

/-- The normal form of a screen item list: inert objects kept as they are, all
unselected wires replaced by the normalized spans of their lines. -/
def normalizeScreen (l : List SchObj) : List SchObj :=
  inertPart l ++ rebuiltWires l true ++ rebuiltWires l false

/-- The orientation-canonical view of an object: a wire is the same segment
whichever of its two endpoints is stored first, so the view orders them.  The
merge/split engine compares object collections through this view: it never
counts a reorientation or a reordering as a change. -/
def canonObj : SchObj → SchObj
  | SchObj.wire d c a b s => SchObj.wire d c (min a b) (max a b) s
  | SchObj.junction x y => SchObj.junction x y
  | SchObj.mark x y => SchObj.mark x y
  | SchObj.other t => SchObj.other t

/-- Modelled from the spec: SCH_SCREEN::SchematicCleanUp merges collinear,
overlapping or end-to-end touching, unselected wire segments that share no
third connection, and splits segments at junctions and wherever another
segment or connection target touches or crosses them away from an endpoint.
It returns the updated list together with whether any merge or split occurred
(so that a no-op cleanup does not warrant an undo entry): the flag is set
exactly when the output is not the same collection of segments and objects as
the input, compared as multisets and with each wire taken as the segment it
covers regardless of which endpoint is stored first — the only rewrites a
merge/split-free run can make. -/
def SchematicCleanUp (l : List SchObj) : List SchObj × Bool :=
  let n := normalizeScreen l
  (n, decide (¬ (n.map canonObj).Perm (l.map canonObj)))

/-- A coordinate is covered by a span list when some span contains it. -/
def coversAt (I : List (Int × Int)) (y : Int) : Prop :=
  ∃ p ∈ I, p.1 ≤ y ∧ y ≤ p.2

/-- Coverage of the line (d, c) at offset y by the unselected d-wires. -/
def lineCovers (l : List SchObj) (d : Bool) (c y : Int) : Prop :=
  ∃ w ∈ wiresOn l d, w.1 = c ∧ w.2.1 ≤ y ∧ y ≤ w.2.2

/-- A junction or mark sits at the point. -/
def nodeAt (l : List SchObj) (x y : Int) : Prop :=
  SchObj.junction x y ∈ l ∨ SchObj.mark x y ∈ l

end KiCad

namespace KiCad

/-! # Theorems -/

/-- C5: for every layer value, including values outside the legal layer range,
SetLayer performs no validation, no clamping and no rejection: it stores the
value unchanged (and touches nothing else), and GetLayer returns exactly it. -/
theorem setLayer_stores_unvalidated (it : BOARD_ITEM) (l : Int) :
    (it.SetLayer l).GetLayer = l ∧
    (it.SetLayer l).m_Layer = l ∧
    (it.SetLayer l).m_Pos = it.m_Pos ∧
    (it.SetLayer l).m_Flags = it.m_Flags ∧
    (it.SetLayer l).m_Class = it.m_Class := by
  refine ⟨rfl, rfl, rfl, rfl, rfl⟩

/-- C6: the default Move/Rotate/Flip on an item whose variant does not override
them leaves the state unchanged but always raises an error signal (the
wxMessageBox event); none of them is a silent no-op. -/
theorem default_transforms_signal_error (it : BOARD_ITEM) (v c : Int × Int) (ang : Int) :
    (it.Move v).1 = it ∧ (it.Move v).2 ≠ [] ∧
    (it.Rotate c ang).1 = it ∧ (it.Rotate c ang).2 ≠ [] ∧
    (it.Flip c).1 = it ∧ (it.Flip c).2 ≠ [] := by
  refine ⟨rfl, by simp [BOARD_ITEM.Move], rfl, by simp [BOARD_ITEM.Rotate],
    rfl, by simp [BOARD_ITEM.Flip]⟩

theorem map_unlink_fix (i : Nat) :
    ∀ ls : List DLIST, (∀ d ∈ ls, i ∉ d.items) →
      ls.map (fun d => DLIST.mk (d.items.filter (fun j => j ≠ i))) = ls := by
  intro ls
  induction ls with
  | nil => intro _; rfl
  | cons d rest ih =>
    intro h
    have hfix : d.items.filter (fun j => j ≠ i) = d.items := by
      apply List.filter_eq_self.mpr
      intro a ha
      have : a ≠ i := fun hai => h d (List.mem_cons_self d rest) (hai ▸ ha)
      simpa using this
    have hd : DLIST.mk (d.items.filter (fun j => j ≠ i)) = d := by
      rw [hfix]
    simp only [List.map_cons, hd, ih (fun x hx => h x (List.mem_cons_of_mem d hx))]

theorem unlink_detaches (w : BoardWorld) (i : Nat) :
    ∀ d ∈ (UnLink w i).lists, i ∉ d.items := by
  intro d hd
  simp only [UnLink, List.mem_map] at hd
  obtain ⟨d0, _, rfl⟩ := hd
  simp

theorem unlink_noop_of_detached (w : BoardWorld) (i : Nat) (h : Detached w i) :
    UnLink w i = w := by
  show { w with lists := _ } = w
  rw [map_unlink_fix i w.lists h]

/-- C9: DeleteStructure unlinks first and destroys second: after the unlink
step (and hence before destruction) no list references the item; the composite
is literally destruction applied to the unlinked world; and UnLink is a no-op
on an already-detached item. -/
theorem deleteStructure_unlink_then_destroy (w : BoardWorld) (i : Nat) :
    (∀ d ∈ (UnLink w i).lists, i ∉ d.items) ∧
    DeleteStructure w i = destroyItem (UnLink w i) i ∧
    (Detached w i → UnLink w i = w) := by
  exact ⟨unlink_detaches w i, rfl, unlink_noop_of_detached w i⟩

/-- Witness for C9 at a concrete world: the detachment hypothesis of the final
conjunct is discharged at a world that does not reference item 7. -/
theorem deleteStructure_unlink_then_destroy_witness :
    Detached ⟨[⟨[1, 2]⟩, ⟨[3]⟩], [1, 2, 3, 7]⟩ 7 ∧
    ((∀ d ∈ (UnLink ⟨[⟨[1, 2]⟩, ⟨[3]⟩], [1, 2, 3, 7]⟩ 7).lists, 7 ∉ d.items) ∧
      DeleteStructure ⟨[⟨[1, 2]⟩, ⟨[3]⟩], [1, 2, 3, 7]⟩ 7 =
        destroyItem (UnLink ⟨[⟨[1, 2]⟩, ⟨[3]⟩], [1, 2, 3, 7]⟩ 7) 7 ∧
      UnLink ⟨[⟨[1, 2]⟩, ⟨[3]⟩], [1, 2, 3, 7]⟩ 7 = ⟨[⟨[1, 2]⟩, ⟨[3]⟩], [1, 2, 3, 7]⟩) := by
  have h := deleteStructure_unlink_then_destroy ⟨[⟨[1, 2]⟩, ⟨[3]⟩], [1, 2, 3, 7]⟩ 7
  have hdet : Detached ⟨[⟨[1, 2]⟩, ⟨[3]⟩], [1, 2, 3, 7]⟩ 7 := by decide
  exact ⟨hdet, h.1, h.2.1, h.2.2 hdet⟩

/-! ## ClearUndoORRedoList theorems (C1) -/

theorem clearFront_eq (cmds : List PICKED_ITEMS_LIST) (n : Nat) :
    clearFront cmds n = (cmds.drop n, deletedItemsOfList (cmds.take n)) := by
  induction cmds generalizing n with
  | nil =>
    cases n with
    | zero => rfl
    | succ m => rfl
  | cons c rest ih =>
    cases n with
    | zero => rfl
    | succ m =>
      simp only [clearFront, ih, List.drop_succ_cons, List.take_succ_cons,
        deletedItemsOfList, List.flatMap_cons]

theorem mem_deletedItems_take (cmds : List PICKED_ITEMS_LIST) (n : Nat) (i : Nat)
    (h : i ∈ deletedItemsOfList (cmds.take n)) : i ∈ deletedItemsOfList cmds := by
  simp only [deletedItemsOfList, List.mem_flatMap] at h ⊢
  obtain ⟨c, hc, hi⟩ := h
  exact ⟨c, List.take_subset n cmds hc, hi⟩

/-- C1: with the ownership invariant (a deleted-item placeholder is owned by
the log, never live in the document), ClearUndoORRedoList with a negative count
empties the container and destroys exactly the deletion placeholders of every
entry; with a non-negative count it removes exactly that many oldest commands
from the front, destroying exactly their deletion placeholders; in either case
nothing live in the document is destroyed (and the document is not touched). -/
theorem clearUndoORRedoList_spec (aList : UNDO_REDO_CONTAINER) (doc : List Nat) (n : Int)
    (h : ∀ i ∈ deletedItemsOfList aList.commands, i ∉ doc) :
    (n < 0 → (ClearUndoORRedoList aList n).1.commands = [] ∧
      (ClearUndoORRedoList aList n).2 = deletedItemsOfList aList.commands) ∧
    (0 ≤ n → (ClearUndoORRedoList aList n).1.commands = aList.commands.drop n.toNat ∧
      (ClearUndoORRedoList aList n).2 = deletedItemsOfList (aList.commands.take n.toNat)) ∧
    (∀ i ∈ (ClearUndoORRedoList aList n).2, i ∉ doc) := by
  refine ⟨?_, ?_, ?_⟩
  · intro hn
    simp only [ClearUndoORRedoList, if_pos hn, clearFront_eq, List.drop_length,
      List.take_length]
    exact ⟨trivial, trivial⟩
  · intro hn
    have hnn : ¬n < 0 := not_lt.mpr hn
    simp only [ClearUndoORRedoList, if_neg hnn, clearFront_eq]
    exact ⟨trivial, trivial⟩
  · intro i hi
    by_cases hn : n < 0
    · simp only [ClearUndoORRedoList, if_pos hn, clearFront_eq] at hi
      exact h i (by simpa [List.take_length] using mem_deletedItems_take _ _ _ hi)
    · simp only [ClearUndoORRedoList, if_neg hn, clearFront_eq] at hi
      exact h i (mem_deletedItems_take _ _ _ hi)

/-- Witness for C1 at a concrete log, document and count: the log owns
placeholders 4 and 5, the document holds 1 and 2, and a negative count clears
everything, destroying exactly 4 and 5. -/
theorem clearUndoORRedoList_spec_witness :
    (∀ i ∈ deletedItemsOfList (UNDO_REDO_CONTAINER.mk
        [⟨[UndoEntry.deletedItem 4, UndoEntry.modified 1 9]⟩,
         ⟨[UndoEntry.created 2, UndoEntry.deletedItem 5]⟩]).commands, i ∉ [1, 2]) ∧
    (ClearUndoORRedoList (UNDO_REDO_CONTAINER.mk
        [⟨[UndoEntry.deletedItem 4, UndoEntry.modified 1 9]⟩,
         ⟨[UndoEntry.created 2, UndoEntry.deletedItem 5]⟩]) (-1)).1.commands = [] ∧
    (ClearUndoORRedoList (UNDO_REDO_CONTAINER.mk
        [⟨[UndoEntry.deletedItem 4, UndoEntry.modified 1 9]⟩,
         ⟨[UndoEntry.created 2, UndoEntry.deletedItem 5]⟩]) (-1)).2 = [4, 5] := by
  have hinv : ∀ i ∈ deletedItemsOfList (UNDO_REDO_CONTAINER.mk
      [⟨[UndoEntry.deletedItem 4, UndoEntry.modified 1 9]⟩,
       ⟨[UndoEntry.created 2, UndoEntry.deletedItem 5]⟩]).commands, i ∉ [1, 2] := by
    decide
  have h := clearUndoORRedoList_spec (UNDO_REDO_CONTAINER.mk
      [⟨[UndoEntry.deletedItem 4, UndoEntry.modified 1 9]⟩,
       ⟨[UndoEntry.created 2, UndoEntry.deletedItem 5]⟩]) [1, 2] (-1) hinv
  refine ⟨hinv, (h.1 (by decide)).1, ?_⟩
  rw [(h.1 (by decide)).2]
  decide

/-! ## Save theorem (C7) -/

/-- C7: Save never mutates the in-memory screen state (item sequence, item
attributes, undo and redo logs); it returns false exactly when the sink cannot
take the whole item sequence, and true otherwise. -/
theorem save_failure_preserves_state (scr : SCH_SCREEN) (aFile : FileSink) :
    (Save scr aFile).2.1 = scr ∧
    ((Save scr aFile).1 = false ↔ aFile.capacity < scr.drawItems.length) := by
  unfold Save
  by_cases h : (scr.drawItems.map itemLine).length ≤ aFile.capacity
  · rw [if_pos h]
    simp only [List.length_map] at h
    simpa using not_lt.mpr h
  · rw [if_neg h]
    simp only [List.length_map] at h
    simpa using lt_of_not_le h

/-! ## Draw-list ownership theorems (C8) -/

theorem getD_subset_flatten (st : List (List Nat)) (k : Nat) :
    st.getD k [] ⊆ st.flatten := by
  induction st generalizing k with
  | nil => simp [List.getD]
  | cons l rest ih =>
    cases k with
    | zero =>
      intro x hx
      simp only [List.getD_cons_zero] at hx
      exact List.mem_flatten.mpr ⟨l, List.mem_cons_self l rest, hx⟩
    | succ m =>
      intro x hx
      simp only [List.getD_cons_succ] at hx
      have := ih m hx
      simp only [List.flatten_cons, List.mem_append]
      exact Or.inr this

theorem mem_flatten_set (st : List (List Nat)) (s : Nat) (v : List Nat) (x : Nat)
    (h : x ∈ (st.set s v).flatten) : x ∈ st.flatten ∨ x ∈ v := by
  induction st generalizing s with
  | nil => simp at h
  | cons l rest ih =>
    cases s with
    | zero =>
      simp only [List.set_cons_zero, List.flatten_cons, List.mem_append] at h
      rcases h with h | h
      · exact Or.inr h
      · exact Or.inl (by simp only [List.flatten_cons, List.mem_append]; exact Or.inr h)
    | succ m =>
      simp only [List.set_cons_succ, List.flatten_cons, List.mem_append] at h
      rcases h with h | h
      · exact Or.inl (by simp only [List.flatten_cons, List.mem_append]; exact Or.inl h)
      · rcases ih m h with h2 | h2
        · exact Or.inl (by simp only [List.flatten_cons, List.mem_append]; exact Or.inr h2)
        · exact Or.inr h2

theorem nodup_flatten_add (st : List (List Nat)) (s i : Nat)
    (hnd : st.flatten.Nodup) (hi : i ∉ st.flatten) :
    ((st.set s (st.getD s [] ++ [i])).flatten).Nodup := by
  induction st generalizing s with
  | nil => simp
  | cons l rest ih =>
    cases s with
    | zero =>
      simp only [List.getD_cons_zero, List.set_cons_zero, List.flatten_cons]
      have hperm : ((l ++ [i]) ++ rest.flatten).Perm (i :: (l ++ rest.flatten)) :=
        (List.perm_append_singleton i l).append_right rest.flatten
      refine hperm.nodup_iff.mpr ?_
      refine List.nodup_cons.mpr ⟨?_, ?_⟩
      · simpa [List.flatten_cons] using hi
      · simpa [List.flatten_cons] using hnd
    | succ m =>
      simp only [List.getD_cons_succ, List.set_cons_succ, List.flatten_cons]
      simp only [List.flatten_cons, List.nodup_append] at hnd
      simp only [List.flatten_cons, List.mem_append] at hi
      push_neg at hi
      refine List.nodup_append.mpr ⟨hnd.1, ih m hnd.2.1 hi.2, ?_⟩
      intro x hxl hxset
      rcases mem_flatten_set rest m _ x hxset with h | h
      · exact hnd.2.2 hxl h
      · rcases List.mem_append.mp h with h2 | h2
        · exact hnd.2.2 hxl (getD_subset_flatten rest m h2)
        · have : x = i := by simpa using h2
          exact hi.1 (this ▸ hxl)

theorem nodup_flatten_remove (st : List (List Nat)) (s i : Nat)
    (hnd : st.flatten.Nodup) :
    ((st.set s ((st.getD s []).filter (fun j => j ≠ i))).flatten).Nodup := by
  induction st generalizing s with
  | nil => simp
  | cons l rest ih =>
    cases s with
    | zero =>
      simp only [List.getD_cons_zero, List.set_cons_zero, List.flatten_cons]
      simp only [List.flatten_cons, List.nodup_append] at hnd
      refine List.nodup_append.mpr ⟨hnd.1.filter _, hnd.2.1, ?_⟩
      intro x hxf hxr
      exact hnd.2.2 (List.mem_of_mem_filter hxf) hxr
    | succ m =>
      simp only [List.getD_cons_succ, List.set_cons_succ, List.flatten_cons]
      simp only [List.flatten_cons, List.nodup_append] at hnd
      refine List.nodup_append.mpr ⟨hnd.1, ih m hnd.2.1, ?_⟩
      intro x hxl hxset
      rcases mem_flatten_set rest m _ x hxset with h | h
      · exact hnd.2.2 hxl h
      · exact hnd.2.2 hxl (getD_subset_flatten rest m (List.mem_of_mem_filter h))

theorem owned_iff_mem_flatten (st : List (List Nat)) (i : Nat) :
    ownedAnywhere st i = true ↔ i ∈ st.flatten := by
  simp [ownedAnywhere, List.any_eq_true, List.mem_flatten]

theorem execDrawOp_nodup (st : List (List Nat)) (op : DrawOp)
    (hnd : st.flatten.Nodup) : ((execDrawOp st op).flatten).Nodup := by
  cases op with
  | add s i =>
    simp only [execDrawOp, AddToDrawList]
    by_cases h : ownedAnywhere st i
    · rw [if_pos h]; exact hnd
    · rw [if_neg h]
      have : i ∉ st.flatten := fun hmem =>
        h ((owned_iff_mem_flatten st i).mpr hmem)
      exact nodup_flatten_add st s i hnd this
  | remove s i =>
    exact nodup_flatten_remove st s i hnd

theorem runDrawOps_nodup (ops : List DrawOp) (st : List (List Nat))
    (hnd : st.flatten.Nodup) : ((runDrawOps st ops).flatten).Nodup := by
  induction ops generalizing st with
  | nil => exact hnd
  | cons op rest ih =>
    simp only [runDrawOps, List.foldl_cons]
    exact ih (execDrawOp st op) (execDrawOp_nodup st op hnd)

theorem emptyScreens_flatten (n : Nat) : (emptyScreens n).flatten = [] := by
  induction n with
  | zero => rfl
  | succ m ih => simp [emptyScreens, List.replicate_succ, ih]

/-- C8: for every finite sequence of AddToDrawList and RemoveFromDrawList
operations starting from fresh empty screens, any item present afterwards is
owned exactly once across all lists (the flattened ownership sequence has no
duplicate, so every occurring item occurs exactly once and in one list only),
and CheckIfOnDrawList answers true exactly on actual membership. -/
theorem drawList_owned_once_and_membership (n : Nat) (ops : List DrawOp) :
    ((runDrawOps (emptyScreens n) ops).flatten).Nodup ∧
    (∀ i, ((runDrawOps (emptyScreens n) ops).flatten).count i ≤ 1) ∧
    (∀ s i, CheckIfOnDrawList (runDrawOps (emptyScreens n) ops) s i = true ↔
      i ∈ (runDrawOps (emptyScreens n) ops).getD s []) := by
  have hnd : ((runDrawOps (emptyScreens n) ops).flatten).Nodup := by
    apply runDrawOps_nodup
    rw [emptyScreens_flatten]
    exact List.nodup_nil
  refine ⟨hnd, fun i => List.nodup_iff_count_le_one.mp hnd i, fun s i => ?_⟩
  simp [CheckIfOnDrawList]

/-! ## Sheet Registry theorems (C4, C10) -/

theorem encounters_node (sid : Nat) (subs : List SheetTree) :
    encounters (SheetTree.node sid subs) = sid :: (subs.map encounters).flatten := by
  rw [encounters]
  congr 2
  exact List.attach_map_coe subs encounters

theorem addScreenToList_nodup (l : List Nat) (s : Nat) (h : l.Nodup) :
    (AddScreenToList l s).Nodup := by
  unfold AddScreenToList
  by_cases hs : s ∈ l
  · rw [if_pos hs]; exact h
  · rw [if_neg hs]
    exact (List.perm_append_singleton s l).nodup_iff.mpr (List.nodup_cons.mpr ⟨hs, h⟩)

theorem foldl_addScreen_nodup (stream : List Nat) :
    ∀ acc : List Nat, acc.Nodup → (stream.foldl AddScreenToList acc).Nodup := by
  induction stream with
  | nil => intro acc h; exact h
  | cons s rest ih =>
    intro acc h
    simp only [List.foldl_cons]
    exact ih (AddScreenToList acc s) (addScreenToList_nodup acc s h)

theorem foldl_addScreen_of_nodup (stream : List Nat) :
    ∀ acc : List Nat, (acc ++ stream).Nodup →
      stream.foldl AddScreenToList acc = acc ++ stream := by
  induction stream with
  | nil => intro acc _; simp
  | cons s rest ih =>
    intro acc h
    have hs : s ∉ acc := by
      intro hmem
      exact List.disjoint_of_nodup_append h hmem (List.mem_cons_self s rest)
    have hadd : AddScreenToList acc s = acc ++ [s] := by
      unfold AddScreenToList
      rw [if_neg hs]
    have hassoc : acc ++ s :: rest = (acc ++ [s]) ++ rest := by
      simp
    simp only [List.foldl_cons, hadd]
    rw [ih (acc ++ [s]) (by rw [← hassoc]; exact h), hassoc]

/-- C4: after the registry is built by traversal from the root of any
hierarchical design, no screen appears twice in the internal sequence, and the
dedup invariant is preserved by the registering operation itself: adding any
screen to any duplicate-free registry state keeps it duplicate-free. -/
theorem registry_dedup_invariant (t : SheetTree) :
    (BuildScreenList t).Nodup ∧
    (∀ l s, l.Nodup → (AddScreenToList l s).Nodup) := by
  refine ⟨?_, fun l s h => addScreenToList_nodup l s h⟩
  unfold BuildScreenList
  exact foldl_addScreen_nodup _ [] List.nodup_nil

/-- Witness for C4 at a concrete hierarchy and a concrete registry state: the
nodup hypothesis of the preservation conjunct is discharged at the registry
state holding screens 1 and 2, which already reference screen 2. -/
theorem registry_dedup_invariant_witness :
    List.Nodup [1, 2] ∧
    ((BuildScreenList (SheetTree.node 0 [SheetTree.node 2 []])).Nodup ∧
      (AddScreenToList [1, 2] 2).Nodup) := by
  have h := registry_dedup_invariant (SheetTree.node 0 [SheetTree.node 2 []])
  exact ⟨by decide, h.1, h.2 [1, 2] 2 (by decide)⟩

theorem encounters_chainTree_zero : encounters (chainTree 0) = [0] := by
  rw [chainTree, encounters_node]
  simp

theorem encounters_chainTree_succ (n : Nat) :
    encounters (chainTree (n + 1)) = (n + 1) :: encounters (chainTree n) := by
  rw [chainTree, encounters_node]
  simp

theorem encounters_chainTree_le (n : Nat) : ∀ m ∈ encounters (chainTree n), m ≤ n := by
  induction n with
  | zero => rw [encounters_chainTree_zero]; intro m hm; simp at hm; omega
  | succ k ih =>
    rw [encounters_chainTree_succ]
    intro m hm
    rcases List.mem_cons.mp hm with h | h
    · omega
    · have := ih m h; omega

theorem encounters_chainTree_nodup (n : Nat) : (encounters (chainTree n)).Nodup := by
  induction n with
  | zero => rw [encounters_chainTree_zero]; exact List.nodup_singleton 0
  | succ k ih =>
    rw [encounters_chainTree_succ]
    refine List.nodup_cons.mpr ⟨fun hmem => ?_, ih⟩
    have := encounters_chainTree_le k (k + 1) hmem
    omega

theorem encounters_chainTree_length (n : Nat) :
    (encounters (chainTree n)).length = n + 1 := by
  induction n with
  | zero => rw [encounters_chainTree_zero]; rfl
  | succ k ih => rw [encounters_chainTree_succ, List.length_cons, ih]

theorem buildScreenList_chainTree (n : Nat) :
    BuildScreenList (chainTree n) = encounters (chainTree n) := by
  unfold BuildScreenList
  have h := foldl_addScreen_of_nodup (encounters (chainTree n)) []
  simp only [List.nil_append] at h
  exact h (encounters_chainTree_nodup n)

/-- Counterexample for C10: a hierarchical design with 501 distinct sheets is
accepted in full by the registry traversal, so the sheet count of an accepted
design does exceed NB_MAX_SHEET. -/
theorem nb_max_sheet_exceeded_cex :
    (BuildScreenList (chainTree 500)).length = 501 ∧
    ¬((BuildScreenList (chainTree 500)).length ≤ NB_MAX_SHEET) := by
  have h : (BuildScreenList (chainTree 500)).length = 501 := by
    rw [buildScreenList_chainTree, encounters_chainTree_length]
  refine ⟨h, ?_⟩
  rw [h]
  decide

/-- C10 amended: NB_MAX_SHEET is the compile-time constant 500 documented as
the maximum number of sheets in a hierarchy project, but nothing enforces it:
the registry accepts and registers hierarchies of every size in full, so
accepted designs may exceed 500 sheets. -/
theorem nb_max_sheet_unenforced (n : Nat) :
    NB_MAX_SHEET = 500 ∧
    (BuildScreenList (chainTree n)).length = n + 1 ∧
    (BuildScreenList (chainTree n)).Nodup := by
  refine ⟨rfl, ?_, ?_⟩
  · rw [buildScreenList_chainTree, encounters_chainTree_length]
  · rw [buildScreenList_chainTree]
    exact encounters_chainTree_nodup n

/-! ## ReplaceDuplicateTimeStamps theorems (C3) -/

theorem le_maxStamp (l : List Nat) : ∀ t ∈ l, t ≤ maxStamp l := by
  induction l with
  | nil => intro t ht; simp at ht
  | cons x rest ih =>
    intro t ht
    rcases List.mem_cons.mp ht with h | h
    · subst h; exact le_max_left _ _
    · exact le_trans (ih t h) (le_max_right _ _)

theorem replaceDups_inv :
    ∀ (ts seen : List Nat) (fresh : Nat),
      (∀ x ∈ seen, x < fresh) → (∀ t ∈ ts, t < fresh) →
      ((replaceDups ts seen fresh).1.Nodup ∧
       (∀ x ∈ (replaceDups ts seen fresh).1, x ∉ seen) ∧
       (∀ x, x ∈ (replaceDups ts seen fresh).2.1 ↔
         x ∈ (replaceDups ts seen fresh).1 ∨ x ∈ seen) ∧
       (∀ x ∈ (replaceDups ts seen fresh).2.1, x < (replaceDups ts seen fresh).2.2.1) ∧
       fresh ≤ (replaceDups ts seen fresh).2.2.1 ∧
       (replaceDups ts seen fresh).1.length = ts.length ∧
       (∀ x ∈ (replaceDups ts seen fresh).1, x ∈ ts ∨ fresh ≤ x) ∧
       (∀ x ∈ ts, x ∈ (replaceDups ts seen fresh).1 ∨ x ∈ seen)) := by
  intro ts
  induction ts with
  | nil =>
    intro seen fresh hseen _
    refine ⟨?_, ?_, ?_, ?_, ?_, ?_, ?_, ?_⟩
    · simp [replaceDups]
    · simp [replaceDups]
    · simp [replaceDups]
    · simpa [replaceDups] using hseen
    · simp [replaceDups]
    · simp [replaceDups]
    · simp [replaceDups]
    · simp [replaceDups]
  | cons t ts ih =>
    intro seen fresh hseen hts
    by_cases ht : t ∈ seen
    · simp only [replaceDups, if_pos ht]
      have hseen2 : ∀ x ∈ fresh :: seen, x < fresh + 1 := by
        intro x hx
        rcases List.mem_cons.mp hx with h | h
        · omega
        · have := hseen x h; omega
      have hts2 : ∀ u ∈ ts, u < fresh + 1 := by
        intro u hu
        have := hts u (List.mem_cons_of_mem t hu); omega
      obtain ⟨ih1, ih2, ih3, ih4, ih5, ih6, ih7, ih8⟩ := ih (fresh :: seen) (fresh + 1) hseen2 hts2
      refine ⟨?_, ?_, ?_, ih4, by omega, by simpa using ih6, ?_, ?_⟩
      · refine List.nodup_cons.mpr ⟨fun hmem => ?_, ih1⟩
        exact ih2 fresh hmem (List.mem_cons_self _ _)
      · intro x hx
        rcases List.mem_cons.mp hx with h | h
        · subst h; intro hmem; exact absurd (hseen x hmem) (by omega)
        · intro hmem; exact ih2 x h (List.mem_cons_of_mem _ hmem)
      · intro x
        rw [ih3 x]
        simp only [List.mem_cons]
        tauto
      · intro x hx
        rcases List.mem_cons.mp hx with h | h
        · subst h; right; omega
        · rcases ih7 x h with h2 | h2
          · exact Or.inl (List.mem_cons_of_mem t h2)
          · right; omega
      · intro x hx
        rcases List.mem_cons.mp hx with h | h
        · subst h; right; exact ht
        · rcases ih8 x h with h2 | h2
          · exact Or.inl (List.mem_cons_of_mem fresh h2)
          · rcases List.mem_cons.mp h2 with h3 | h3
            · exfalso; have := hts x (List.mem_cons_of_mem t h); omega
            · exact Or.inr h3
    · simp only [replaceDups, if_neg ht]
      have hseen2 : ∀ x ∈ t :: seen, x < fresh := by
        intro x hx
        rcases List.mem_cons.mp hx with h | h
        · rw [h]; exact hts t (List.mem_cons_self _ _)
        · exact hseen x h
      have hts2 : ∀ u ∈ ts, u < fresh := fun u hu => hts u (List.mem_cons_of_mem t hu)
      obtain ⟨ih1, ih2, ih3, ih4, ih5, ih6, ih7, ih8⟩ := ih (t :: seen) fresh hseen2 hts2
      refine ⟨?_, ?_, ?_, ih4, ih5, by simpa using ih6, ?_, ?_⟩
      · refine List.nodup_cons.mpr ⟨fun hmem => ?_, ih1⟩
        exact ih2 t hmem (List.mem_cons_self _ _)
      · intro x hx
        rcases List.mem_cons.mp hx with h | h
        · subst h; exact ht
        · intro hmem; exact ih2 x h (List.mem_cons_of_mem _ hmem)
      · intro x
        rw [ih3 x]
        simp only [List.mem_cons]
        tauto
      · intro x hx
        rcases List.mem_cons.mp hx with h | h
        · subst h; exact Or.inl (List.mem_cons_self _ _)
        · rcases ih7 x h with h2 | h2
          · exact Or.inl (List.mem_cons_of_mem t h2)
          · exact Or.inr h2
      · intro x hx
        rcases List.mem_cons.mp hx with h | h
        · subst h; exact Or.inl (List.mem_cons_self _ _)
        · rcases ih8 x h with h2 | h2
          · exact Or.inl (List.mem_cons_of_mem t h2)
          · rcases List.mem_cons.mp h2 with h3 | h3
            · subst h3; exact Or.inl (List.mem_cons_self _ _)
            · exact Or.inr h3

theorem replaceScreens_inv :
    ∀ (ss : List (List Nat)) (seen : List Nat) (fresh : Nat),
      (∀ x ∈ seen, x < fresh) → (∀ t ∈ ss.flatten, t < fresh) →
      ((replaceScreens ss seen fresh).1.flatten.Nodup ∧
       (∀ x ∈ (replaceScreens ss seen fresh).1.flatten, x ∉ seen) ∧
       (∀ x, x ∈ (replaceScreens ss seen fresh).2.1 ↔
         x ∈ (replaceScreens ss seen fresh).1.flatten ∨ x ∈ seen) ∧
       (∀ x ∈ (replaceScreens ss seen fresh).2.1, x < (replaceScreens ss seen fresh).2.2.1) ∧
       fresh ≤ (replaceScreens ss seen fresh).2.2.1 ∧
       (replaceScreens ss seen fresh).1.map List.length = ss.map List.length ∧
       (∀ x ∈ (replaceScreens ss seen fresh).1.flatten, x ∈ ss.flatten ∨ fresh ≤ x) ∧
       (∀ x ∈ ss.flatten, x ∈ (replaceScreens ss seen fresh).1.flatten ∨ x ∈ seen)) := by
  intro ss
  induction ss with
  | nil =>
    intro seen fresh hseen _
    refine ⟨?_, ?_, ?_, ?_, ?_, ?_, ?_, ?_⟩
    · simp [replaceScreens]
    · simp [replaceScreens]
    · simp [replaceScreens]
    · simpa [replaceScreens] using hseen
    · simp [replaceScreens]
    · simp [replaceScreens]
    · simp [replaceScreens]
    · simp [replaceScreens]
  | cons s ss ih =>
    intro seen fresh hseen hts
    have hts1 : ∀ t ∈ s, t < fresh := by
      intro t htm
      exact hts t (by simp only [List.flatten_cons, List.mem_append]; exact Or.inl htm)
    have hts2 : ∀ t ∈ ss.flatten, t < fresh := by
      intro t htm
      exact hts t (by simp only [List.flatten_cons, List.mem_append]; exact Or.inr htm)
    obtain ⟨d1, d2, d3, d4, d5, d6, d7, d8⟩ := replaceDups_inv s seen fresh hseen hts1
    have hts2b : ∀ t ∈ ss.flatten, t < (replaceDups s seen fresh).2.2.1 :=
      fun t htm => lt_of_lt_of_le (hts2 t htm) d5
    obtain ⟨s1, s2, s3, s4, s5, s6, s7, s8⟩ :=
      ih (replaceDups s seen fresh).2.1 (replaceDups s seen fresh).2.2.1 d4 hts2b
    simp only [replaceScreens, List.flatten_cons]
    refine ⟨?_, ?_, ?_, s4, le_trans d5 s5, ?_, ?_, ?_⟩
    · refine List.nodup_append.mpr ⟨d1, s1, ?_⟩
      intro x hx1 hx2
      exact s2 x hx2 ((d3 x).mpr (Or.inl hx1))
    · intro x hx
      rcases List.mem_append.mp hx with h | h
      · exact d2 x h
      · intro hmem
        exact s2 x h ((d3 x).mpr (Or.inr hmem))
    · intro x
      rw [s3 x, d3 x]
      simp only [List.mem_append]
      tauto
    · simp only [List.map_cons, d6, s6]
    · intro x hx
      rcases List.mem_append.mp hx with h | h
      · rcases d7 x h with h2 | h2
        · exact Or.inl (List.mem_append.mpr (Or.inl h2))
        · exact Or.inr h2
      · rcases s7 x h with h2 | h2
        · exact Or.inl (List.mem_append.mpr (Or.inr h2))
        · exact Or.inr (le_trans d5 h2)
    · intro x hx
      rcases List.mem_append.mp hx with h | h
      · rcases d8 x h with h2 | h2
        · exact Or.inl (List.mem_append.mpr (Or.inl h2))
        · exact Or.inr h2
      · rcases s8 x h with h2 | h2
        · exact Or.inl (List.mem_append.mpr (Or.inr h2))
        · rcases (d3 x).mp h2 with h3 | h3
          · exact Or.inl (List.mem_append.mpr (Or.inl h3))
          · exact Or.inr h3

theorem dupCount_append (xs : List Nat) :
    ∀ (ys seen : List Nat),
      dupCount (xs ++ ys) seen = dupCount xs seen + dupCount ys (xs.reverse ++ seen) := by
  induction xs with
  | nil => intro ys seen; simp [dupCount]
  | cons t xs ih =>
    intro ys seen
    simp only [List.cons_append, dupCount, List.append_eq]
    rw [ih ys (t :: seen)]
    have hrw : (t :: xs).reverse ++ seen = xs.reverse ++ t :: seen := by
      simp
    rw [hrw]
    omega

theorem replaceDups_count :
    ∀ (ts seen1 seen2 : List Nat) (fresh m : Nat),
      (∀ t ∈ ts, t ≤ m) → m < fresh →
      (∀ x, x ≤ m → (x ∈ seen1 ↔ x ∈ seen2)) →
      (replaceDups ts seen1 fresh).2.2.2 = dupCount ts seen2 := by
  intro ts
  induction ts with
  | nil => intro seen1 seen2 fresh m _ _ _; simp [replaceDups, dupCount]
  | cons t ts ih =>
    intro seen1 seen2 fresh m hts hm hcorr
    have htm : t ≤ m := hts t (List.mem_cons_self _ _)
    have hts2 : ∀ u ∈ ts, u ≤ m := fun u hu => hts u (List.mem_cons_of_mem t hu)
    by_cases ht : t ∈ seen1
    · have ht2 : t ∈ seen2 := (hcorr t htm).mp ht
      simp only [replaceDups, if_pos ht, dupCount, if_pos ht2]
      have hcorr2 : ∀ x, x ≤ m → (x ∈ fresh :: seen1 ↔ x ∈ t :: seen2) := by
        intro x hx
        simp only [List.mem_cons]
        constructor
        · intro h
          rcases h with h | h
          · omega
          · exact Or.inr ((hcorr x hx).mp h)
        · intro h
          rcases h with h | h
          · exact Or.inr (by rw [h]; exact ht)
          · exact Or.inr ((hcorr x hx).mpr h)
      rw [ih (fresh :: seen1) (t :: seen2) (fresh + 1) m hts2 (by omega) hcorr2]
      omega
    · have ht2 : t ∉ seen2 := fun h => ht ((hcorr t htm).mpr h)
      simp only [replaceDups, if_neg ht, dupCount, if_neg ht2]
      have hcorr2 : ∀ x, x ≤ m → (x ∈ t :: seen1 ↔ x ∈ t :: seen2) := by
        intro x hx
        simp only [List.mem_cons, hcorr x hx]
      rw [ih (t :: seen1) (t :: seen2) fresh m hts2 hm hcorr2]
      omega

theorem replaceScreens_count :
    ∀ (ss : List (List Nat)) (seen1 seen2 : List Nat) (fresh m : Nat),
      (∀ x ∈ seen1, x < fresh) →
      (∀ t ∈ ss.flatten, t ≤ m) → m < fresh →
      (∀ x, x ≤ m → (x ∈ seen1 ↔ x ∈ seen2)) →
      (replaceScreens ss seen1 fresh).2.2.2 = dupCount ss.flatten seen2 := by
  intro ss
  induction ss with
  | nil => intro seen1 seen2 fresh m _ _ _ _; simp [replaceScreens, dupCount]
  | cons s ss ih =>
    intro seen1 seen2 fresh m hseen hts hm hcorr
    have hts1 : ∀ t ∈ s, t ≤ m := by
      intro t htm
      exact hts t (by simp only [List.flatten_cons, List.mem_append]; exact Or.inl htm)
    have hts1lt : ∀ t ∈ s, t < fresh := fun t htm => lt_of_le_of_lt (hts1 t htm) hm
    have hts2 : ∀ t ∈ ss.flatten, t ≤ m := by
      intro t htm
      exact hts t (by simp only [List.flatten_cons, List.mem_append]; exact Or.inr htm)
    obtain ⟨d1, d2, d3, d4, d5, d6, d7, d8⟩ := replaceDups_inv s seen1 fresh hseen hts1lt
    have hcnt1 : (replaceDups s seen1 fresh).2.2.2 = dupCount s seen2 :=
      replaceDups_count s seen1 seen2 fresh m hts1 hm hcorr
    have hcorr2 : ∀ x, x ≤ m →
        (x ∈ (replaceDups s seen1 fresh).2.1 ↔ x ∈ s.reverse ++ seen2) := by
      intro x hx
      rw [d3 x]
      simp only [List.mem_append, List.mem_reverse]
      constructor
      · intro h
        rcases h with h | h
        · rcases d7 x h with h2 | h2
          · exact Or.inl h2
          · omega
        · exact Or.inr ((hcorr x hx).mp h)
      · intro h
        rcases h with h | h
        · rcases d8 x h with h2 | h2
          · exact Or.inl h2
          · exact Or.inr h2
        · exact Or.inr ((hcorr x hx).mpr h)
    have hcnt2 : (replaceScreens ss (replaceDups s seen1 fresh).2.1
          (replaceDups s seen1 fresh).2.2.1).2.2.2 =
        dupCount ss.flatten (s.reverse ++ seen2) :=
      ih (replaceDups s seen1 fresh).2.1 (s.reverse ++ seen2)
        (replaceDups s seen1 fresh).2.2.1 m d4 hts2 (lt_of_lt_of_le hm d5) hcorr2
    simp only [replaceScreens, List.flatten_cons, dupCount_append, hcnt1, hcnt2]

theorem replaceDups_of_nodup :
    ∀ (ts seen : List Nat) (fresh : Nat), ts.Nodup → (∀ t ∈ ts, t ∉ seen) →
      replaceDups ts seen fresh = (ts, ts.reverse ++ seen, fresh, 0) := by
  intro ts
  induction ts with
  | nil => intro seen fresh _ _; simp [replaceDups]
  | cons t ts ih =>
    intro seen fresh hnd hdisj
    have ht : t ∉ seen := hdisj t (List.mem_cons_self _ _)
    have hnd2 : ts.Nodup := (List.nodup_cons.mp hnd).2
    have hdisj2 : ∀ u ∈ ts, u ∉ t :: seen := by
      intro u hu
      simp only [List.mem_cons]
      push_neg
      exact ⟨fun he => (List.nodup_cons.mp hnd).1 (he ▸ hu),
        hdisj u (List.mem_cons_of_mem t hu)⟩
    simp only [replaceDups, if_neg ht, ih (t :: seen) fresh hnd2 hdisj2]
    simp

theorem replaceScreens_of_nodup :
    ∀ (ss : List (List Nat)) (seen : List Nat) (fresh : Nat),
      ss.flatten.Nodup → (∀ t ∈ ss.flatten, t ∉ seen) →
      replaceScreens ss seen fresh = (ss, ss.flatten.reverse ++ seen, fresh, 0) := by
  intro ss
  induction ss with
  | nil => intro seen fresh _ _; simp [replaceScreens]
  | cons s ss ih =>
    intro seen fresh hnd hdisj
    simp only [List.flatten_cons] at hnd hdisj
    have hnds : s.Nodup := (List.nodup_append.mp hnd).1
    have hndss : ss.flatten.Nodup := (List.nodup_append.mp hnd).2.1
    have hdj : List.Disjoint s ss.flatten := (List.nodup_append.mp hnd).2.2
    have hdisjs : ∀ t ∈ s, t ∉ seen :=
      fun t htm => hdisj t (List.mem_append.mpr (Or.inl htm))
    have hdisj2 : ∀ t ∈ ss.flatten, t ∉ s.reverse ++ seen := by
      intro t htm
      simp only [List.mem_append, List.mem_reverse]
      push_neg
      exact ⟨fun hs => hdj hs htm, hdisj t (List.mem_append.mpr (Or.inr htm))⟩
    simp only [replaceScreens, replaceDups_of_nodup s seen fresh hnds hdisjs,
      ih (s.reverse ++ seen) fresh hndss hdisj2]
    simp [List.reverse_append]

/-- C3: ReplaceDuplicateTimeStamps returns exactly the number of duplicate
occurrences it rewrote (the all-but-first occurrences, in traversal order, of
each duplicated stamp); afterwards all stamps in the hierarchy are globally
unique; the hierarchy shape is preserved and every originally present stamp
value is still present (first occurrences keep their stamps); and the scan is
idempotent: run again on its own output it rewrites nothing and returns 0. -/
theorem replaceDuplicateTimeStamps_spec (screens : List (List Nat)) :
    (ReplaceDuplicateTimeStamps screens).2 = dupCount screens.flatten [] ∧
    ((ReplaceDuplicateTimeStamps screens).1.flatten).Nodup ∧
    (ReplaceDuplicateTimeStamps screens).1.map List.length = screens.map List.length ∧
    (∀ x ∈ screens.flatten, x ∈ (ReplaceDuplicateTimeStamps screens).1.flatten) ∧
    ReplaceDuplicateTimeStamps (ReplaceDuplicateTimeStamps screens).1 =
      ((ReplaceDuplicateTimeStamps screens).1, 0) := by
  have hle : ∀ t ∈ screens.flatten, t ≤ maxStamp screens.flatten :=
    le_maxStamp screens.flatten
  have hlt : ∀ t ∈ screens.flatten, t < maxStamp screens.flatten + 1 := by
    intro t htm; have := hle t htm; omega
  obtain ⟨i1, i2, i3, i4, i5, i6, i7, i8⟩ :=
    replaceScreens_inv screens [] (maxStamp screens.flatten + 1) (by simp) hlt
  refine ⟨?_, i1, i6, ?_, ?_⟩
  · exact replaceScreens_count screens [] [] (maxStamp screens.flatten + 1)
      (maxStamp screens.flatten) (by simp) hle (by omega) (fun x _ => Iff.rfl)
  · intro x hx
    rcases i8 x hx with h | h
    · exact h
    · simp at h
  · have hfix := replaceScreens_of_nodup (ReplaceDuplicateTimeStamps screens).1 []
      (maxStamp (ReplaceDuplicateTimeStamps screens).1.flatten + 1) i1 (by simp)
    simp only [ReplaceDuplicateTimeStamps] at hfix ⊢
    rw [hfix]

/-! ## Connectivity Engine theorems (C2): sorted coordinate lists -/

theorem sortedDedup_sorted (xs : List Int) : (sortedDedup xs).Sorted (· ≤ ·) := by
  have h1 : (xs.insertionSort (· ≤ ·)).Sorted (· ≤ ·) :=
    List.sorted_insertionSort (· ≤ ·) xs
  exact h1.sublist (List.dedup_sublist _)

theorem sortedDedup_nodup (xs : List Int) : (sortedDedup xs).Nodup :=
  List.nodup_dedup _

theorem mem_sortedDedup (xs : List Int) (x : Int) : x ∈ sortedDedup xs ↔ x ∈ xs := by
  unfold sortedDedup
  rw [List.mem_dedup, List.mem_insertionSort]

theorem sorted_nodup_ext (xs ys : List Int)
    (hxs : xs.Sorted (· ≤ ·)) (hxn : xs.Nodup)
    (hys : ys.Sorted (· ≤ ·)) (hyn : ys.Nodup)
    (h : ∀ x, x ∈ xs ↔ x ∈ ys) : xs = ys := by
  have hp : xs.Perm ys := (List.perm_ext_iff_of_nodup hxn hyn).mpr h
  exact List.eq_of_perm_of_sorted hp hxs hys

theorem sortedDedup_ext (xs ys : List Int) (h : ∀ x, x ∈ xs ↔ x ∈ ys) :
    sortedDedup xs = sortedDedup ys := by
  refine sorted_nodup_ext _ _ (sortedDedup_sorted xs) (sortedDedup_nodup xs)
    (sortedDedup_sorted ys) (sortedDedup_nodup ys) (fun x => ?_)
  rw [mem_sortedDedup, mem_sortedDedup]
  exact h x

theorem sortedDedup_strict (xs : List Int) : (sortedDedup xs).Sorted (· < ·) := by
  have h1 := sortedDedup_sorted xs
  have h2 := sortedDedup_nodup xs
  have h3 : (sortedDedup xs).Pairwise (fun a b : Int => a ≤ b ∧ a ≠ b) :=
    (List.pairwise_and_iff).mpr ⟨h1, h2⟩
  exact h3.imp (fun h => lt_of_le_of_ne h.1 h.2)

/-! ## Span basics -/

theorem wiresOn_lohi (l : List SchObj) (d : Bool) :
    ∀ w ∈ wiresOn l d, w.2.1 ≤ w.2.2 := by
  intro w hw
  simp only [wiresOn, List.mem_filterMap] at hw
  obtain ⟨o, _, ho⟩ := hw
  cases o with
  | wire d2 c a b s =>
    simp only [toWire] at ho
    by_cases hc : d2 = d ∧ s = false
    · rw [if_pos hc] at ho
      cases ho
      exact min_le_max
    · rw [if_neg hc] at ho; exact absurd ho (by simp)
  | junction x y => exact absurd ho (by simp [toWire])
  | mark x y => exact absurd ho (by simp [toWire])
  | other t => exact absurd ho (by simp [toWire])

theorem intervalsAt_lohi (l : List SchObj) (d : Bool) (c : Int) :
    ∀ p ∈ intervalsAt l d c, p.1 ≤ p.2 := by
  intro p hp
  simp only [intervalsAt, List.mem_insertionSort, List.mem_filterMap] at hp
  obtain ⟨w, hw, hsel⟩ := hp
  by_cases hc : w.1 = c
  · rw [if_pos hc] at hsel
    cases hsel
    exact wiresOn_lohi l d w hw
  · rw [if_neg hc] at hsel; exact absurd hsel (by simp)

theorem intervalsAt_sorted (l : List SchObj) (d : Bool) (c : Int) :
    (intervalsAt l d c).Sorted leFst :=
  List.sorted_insertionSort leFst _

/-! ## splitInterval -/

theorem splitInterval_ne_nil (a b : Int) (cuts : List Int) :
    splitInterval a b cuts ≠ [] := by
  cases cuts <;> simp [splitInterval]

theorem splitInterval_bounds (cuts : List Int) :
    ∀ (a b : Int), a ≤ b → (∀ x ∈ cuts, a < x ∧ x < b) → cuts.Sorted (· < ·) →
      ∀ p ∈ splitInterval a b cuts, a ≤ p.1 ∧ p.1 ≤ p.2 ∧ p.2 ≤ b := by
  induction cuts with
  | nil =>
    intro a b hab _ _ p hp
    simp only [splitInterval, List.mem_singleton] at hp
    subst hp
    exact ⟨le_refl _, hab, le_refl _⟩
  | cons x xs ih =>
    intro a b hab hcuts hsort p hp
    have hx := hcuts x (List.mem_cons_self _ _)
    simp only [splitInterval, List.mem_cons] at hp
    rcases hp with hp | hp
    · subst hp
      exact ⟨le_refl _, le_of_lt hx.1, le_of_lt hx.2⟩
    · have hxs : ∀ u ∈ xs, x < u ∧ u < b := by
        intro u hu
        exact ⟨(List.rel_of_sorted_cons hsort) u hu, (hcuts u (List.mem_cons_of_mem x hu)).2⟩
      have := ih x b (le_of_lt hx.2) hxs hsort.tail p hp
      exact ⟨le_trans (le_of_lt hx.1) this.1, this.2.1, this.2.2⟩

theorem splitInterval_head (a b : Int) (cuts : List Int) :
    ∃ u rest, splitInterval a b cuts = (a, u) :: rest := by
  cases cuts with
  | nil => exact ⟨b, [], rfl⟩
  | cons x xs => exact ⟨x, splitInterval x b xs, rfl⟩

theorem splitInterval_sorted (cuts : List Int) :
    ∀ (a b : Int), a ≤ b → (∀ x ∈ cuts, a < x ∧ x < b) → cuts.Sorted (· < ·) →
      (splitInterval a b cuts).Sorted leFst := by
  induction cuts with
  | nil => intro a b _ _ _; simp [splitInterval, List.Sorted]
  | cons x xs ih =>
    intro a b hab hcuts hsort
    have hx := hcuts x (List.mem_cons_self _ _)
    have hxs : ∀ u ∈ xs, x < u ∧ u < b := by
      intro u hu
      exact ⟨(List.rel_of_sorted_cons hsort) u hu, (hcuts u (List.mem_cons_of_mem x hu)).2⟩
    have htail := ih x b (le_of_lt hx.2) hxs hsort.tail
    simp only [splitInterval]
    refine List.Pairwise.cons ?_ htail
    intro p hp
    have := splitInterval_bounds xs x b (le_of_lt hx.2) hxs hsort.tail p hp
    show (a, x).1 ≤ p.1
    exact le_trans (le_of_lt hx.1) this.1

theorem splitInterval_cov (cuts : List Int) :
    ∀ (a b : Int), a ≤ b → (∀ x ∈ cuts, a < x ∧ x < b) → cuts.Sorted (· < ·) →
      ∀ y, coversAt (splitInterval a b cuts) y ↔ (a ≤ y ∧ y ≤ b) := by
  induction cuts with
  | nil =>
    intro a b _ _ _ y
    simp [splitInterval, coversAt]
  | cons x xs ih =>
    intro a b hab hcuts hsort y
    have hx := hcuts x (List.mem_cons_self _ _)
    have hxs : ∀ u ∈ xs, x < u ∧ u < b := by
      intro u hu
      exact ⟨(List.rel_of_sorted_cons hsort) u hu, (hcuts u (List.mem_cons_of_mem x hu)).2⟩
    have htail := ih x b (le_of_lt hx.2) hxs hsort.tail y
    simp only [splitInterval, coversAt, List.mem_cons] at htail ⊢
    constructor
    · intro h
      obtain ⟨p, hp, hcov⟩ := h
      rcases hp with hp | hp
      · subst hp
        exact ⟨hcov.1, le_trans hcov.2 (le_of_lt hx.2)⟩
      · have := htail.mp ⟨p, hp, hcov⟩
        exact ⟨le_trans (le_of_lt hx.1) this.1, this.2⟩
    · intro h
      by_cases hyx : y ≤ x
      · exact ⟨(a, x), Or.inl rfl, h.1, hyx⟩
      · obtain ⟨p, hp, hcov⟩ := htail.mpr ⟨le_of_lt (lt_of_not_le hyx), h.2⟩
        exact ⟨p, Or.inr hp, hcov⟩

/-! ## Sweep lemmas -/

theorem sweepAux_fst (xs : List (Int × Int)) :
    ∀ cur : Int × Int, ∃ v rest, sweepAux cur xs = (cur.1, v) :: rest := by
  induction xs with
  | nil => intro cur; exact ⟨cur.2, [], rfl⟩
  | cons nxt rest ih =>
    intro cur
    simp only [sweepAux]
    by_cases h : nxt.1 ≤ cur.2
    · rw [if_pos h]
      obtain ⟨v, r2, hr⟩ := ih (cur.1, max cur.2 nxt.2)
      exact ⟨v, r2, hr⟩
    · rw [if_neg h]
      exact ⟨cur.2, sweepAux nxt rest, rfl⟩

theorem sweepAux_lohi (xs : List (Int × Int)) :
    ∀ cur : Int × Int, cur.1 ≤ cur.2 → (∀ p ∈ xs, p.1 ≤ p.2) →
      ∀ p ∈ sweepAux cur xs, p.1 ≤ p.2 := by
  induction xs with
  | nil =>
    intro cur hc _ p hp
    simp only [sweepAux, List.mem_singleton] at hp
    subst hp; exact hc
  | cons nxt rest ih =>
    intro cur hc hxs p hp
    simp only [sweepAux] at hp
    by_cases h : nxt.1 ≤ cur.2
    · rw [if_pos h] at hp
      refine ih (cur.1, max cur.2 nxt.2) ?_ (fun q hq => hxs q (List.mem_cons_of_mem _ hq)) p hp
      exact le_trans hc (le_max_left _ _)
    · rw [if_neg h] at hp
      rcases List.mem_cons.mp hp with h2 | h2
      · subst h2; exact hc
      · exact ih nxt (hxs nxt (List.mem_cons_self _ _))
          (fun q hq => hxs q (List.mem_cons_of_mem _ hq)) p h2

theorem sweepAux_lb (xs : List (Int × Int)) :
    ∀ cur : Int × Int, (cur :: xs).Sorted leFst →
      ∀ p ∈ sweepAux cur xs, cur.1 ≤ p.1 := by
  induction xs with
  | nil =>
    intro cur _ p hp
    simp only [sweepAux, List.mem_singleton] at hp
    subst hp; exact le_refl _
  | cons nxt rest ih =>
    intro cur hs p hp
    have hcn : leFst cur nxt := (List.rel_of_sorted_cons hs) nxt (List.mem_cons_self _ _)
    have hrest : ∀ q ∈ rest, leFst cur q := fun q hq =>
      (List.rel_of_sorted_cons hs) q (List.mem_cons_of_mem nxt hq)
    simp only [sweepAux] at hp
    by_cases h : nxt.1 ≤ cur.2
    · rw [if_pos h] at hp
      have hs2 : ((cur.1, max cur.2 nxt.2) :: rest).Sorted leFst :=
        List.Pairwise.cons (fun q hq => hrest q hq) hs.tail.tail
      exact ih (cur.1, max cur.2 nxt.2) hs2 p hp
    · rw [if_neg h] at hp
      rcases List.mem_cons.mp hp with h2 | h2
      · subst h2; exact le_refl _
      · exact le_trans hcn (ih nxt hs.tail p h2)

theorem sweepAux_gap (xs : List (Int × Int)) :
    ∀ cur : Int × Int, (cur :: xs).Sorted leFst → cur.1 ≤ cur.2 →
      (∀ p ∈ xs, p.1 ≤ p.2) →
      (sweepAux cur xs).Chain' (fun p q => p.2 < q.1) := by
  induction xs with
  | nil => intro cur _ _ _; simp [sweepAux]
  | cons nxt rest ih =>
    intro cur hs hc hxs
    have hrest : ∀ q ∈ rest, leFst cur q := fun q hq =>
      (List.rel_of_sorted_cons hs) q (List.mem_cons_of_mem nxt hq)
    simp only [sweepAux]
    by_cases h : nxt.1 ≤ cur.2
    · rw [if_pos h]
      have hs2 : ((cur.1, max cur.2 nxt.2) :: rest).Sorted leFst :=
        List.Pairwise.cons (fun q hq => hrest q hq) hs.tail.tail
      exact ih (cur.1, max cur.2 nxt.2) hs2
        (le_trans hc (le_max_left _ _))
        (fun q hq => hxs q (List.mem_cons_of_mem _ hq))
    · rw [if_neg h]
      have hchain := ih nxt hs.tail (hxs nxt (List.mem_cons_self _ _))
        (fun q hq => hxs q (List.mem_cons_of_mem _ hq))
      refine List.chain'_cons'.mpr ⟨?_, hchain⟩
      intro y hy
      obtain ⟨v, r2, hr⟩ := sweepAux_fst rest nxt
      rw [hr] at hy
      simp only [List.head?_cons, Option.mem_def, Option.some.injEq] at hy
      subst hy
      exact lt_of_not_le h

theorem sweepAux_cov (xs : List (Int × Int)) :
    ∀ cur : Int × Int, (cur :: xs).Sorted leFst → cur.1 ≤ cur.2 →
      (∀ p ∈ xs, p.1 ≤ p.2) →
      ∀ y, coversAt (sweepAux cur xs) y ↔
        ((cur.1 ≤ y ∧ y ≤ cur.2) ∨ coversAt xs y) := by
  induction xs with
  | nil =>
    intro cur _ _ _ y
    simp [sweepAux, coversAt]
  | cons nxt rest ih =>
    intro cur hs hc hxs y
    have hcn : cur.1 ≤ nxt.1 := (List.rel_of_sorted_cons hs) nxt (List.mem_cons_self _ _)
    have hrest : ∀ q ∈ rest, leFst cur q := fun q hq =>
      (List.rel_of_sorted_cons hs) q (List.mem_cons_of_mem nxt hq)
    have hn : nxt.1 ≤ nxt.2 := hxs nxt (List.mem_cons_self _ _)
    simp only [sweepAux]
    by_cases h : nxt.1 ≤ cur.2
    · rw [if_pos h]
      have hs2 : ((cur.1, max cur.2 nxt.2) :: rest).Sorted leFst :=
        List.Pairwise.cons (fun q hq => hrest q hq) hs.tail.tail
      have hm := ih (cur.1, max cur.2 nxt.2) hs2
        (le_trans hc (le_max_left _ _))
        (fun q hq => hxs q (List.mem_cons_of_mem _ hq)) y
      rw [hm]
      have hsplit : (cur.1 ≤ y ∧ y ≤ max cur.2 nxt.2) ↔
          ((cur.1 ≤ y ∧ y ≤ cur.2) ∨ (nxt.1 ≤ y ∧ y ≤ nxt.2)) := by
        rcases le_total cur.2 nxt.2 with hm2 | hm2
        · rw [max_eq_right hm2]
          omega
        · rw [max_eq_left hm2]
          omega
      rw [hsplit]
      simp only [coversAt, List.mem_cons]
      constructor
      · intro hcase
        rcases hcase with (hcase | hcase) | hcase
        · exact Or.inl hcase
        · exact Or.inr ⟨nxt, Or.inl rfl, hcase⟩
        · obtain ⟨p, hp, hcov⟩ := hcase
          exact Or.inr ⟨p, Or.inr hp, hcov⟩
      · intro hcase
        rcases hcase with hcase | ⟨p, hp | hp, hcov⟩
        · exact Or.inl (Or.inl hcase)
        · subst hp; exact Or.inl (Or.inr hcov)
        · exact Or.inr ⟨p, hp, hcov⟩
    · rw [if_neg h]
      have hm := ih nxt hs.tail hn (fun q hq => hxs q (List.mem_cons_of_mem _ hq)) y
      simp only [coversAt, List.mem_cons] at hm ⊢
      constructor
      · intro hcase
        obtain ⟨p, hp, hcov⟩ := hcase
        rcases hp with hp | hp
        · subst hp; exact Or.inl hcov
        · rcases hm.mp ⟨p, hp, hcov⟩ with h2 | h2
          · exact Or.inr ⟨nxt, Or.inl rfl, h2⟩
          · obtain ⟨q, hq, hcov2⟩ := h2
            exact Or.inr ⟨q, Or.inr hq, hcov2⟩
      · intro hcase
        rcases hcase with hcase | ⟨p, hp | hp, hcov⟩
        · exact ⟨cur, Or.inl rfl, hcase⟩
        · subst hp
          obtain ⟨q, hq, hcov2⟩ := hm.mpr (Or.inl hcov)
          exact ⟨q, Or.inr hq, hcov2⟩
        · obtain ⟨q, hq, hcov2⟩ := hm.mpr (Or.inr ⟨p, hp, hcov⟩)
          exact ⟨q, Or.inr hq, hcov2⟩

theorem chain_gap_pairwise (M : List (Int × Int)) (hlh : ∀ p ∈ M, p.1 ≤ p.2)
    (hch : M.Chain' (fun p q => p.2 < q.1)) :
    M.Pairwise (fun p q => p.2 < q.1) := by
  induction M with
  | nil => exact List.Pairwise.nil
  | cons a M2 ih =>
    have hch2 : M2.Chain' (fun p q => p.2 < q.1) := hch.tail
    have hp2 := ih (fun p hp => hlh p (List.mem_cons_of_mem a hp)) hch2
    refine List.Pairwise.cons ?_ hp2
    intro b hb
    cases M2 with
    | nil => simp at hb
    | cons c M3 =>
      have hac : a.2 < c.1 := List.chain'_cons.mp hch |>.1
      rcases List.mem_cons.mp hb with h2 | h2
      · subst h2; exact hac
      · have hcb : c.2 < b.1 := List.rel_of_pairwise_cons hp2 h2
        have hc12 : c.1 ≤ c.2 := hlh c (by simp)
        omega

/-! ## Re-merging split chains -/

theorem sweepAux_chain (cuts : List Int) :
    ∀ (a b u : Int) (rest : List (Int × Int)), a ≤ b →
      (∀ x ∈ cuts, a < x ∧ x < b) → cuts.Sorted (· < ·) →
      sweepAux (u, a) (splitInterval a b cuts ++ rest) = sweepAux (u, b) rest := by
  induction cuts with
  | nil =>
    intro a b u rest hab _ _
    simp only [splitInterval, List.cons_append, sweepAux]
    rw [if_pos (le_refl a)]
    rw [max_eq_right hab]
    rfl
  | cons x xs ih =>
    intro a b u rest hab hcuts hsort
    have hx := hcuts x (List.mem_cons_self _ _)
    have hxs : ∀ v ∈ xs, x < v ∧ v < b := by
      intro v hv
      exact ⟨(List.rel_of_sorted_cons hsort) v hv, (hcuts v (List.mem_cons_of_mem x hv)).2⟩
    simp only [splitInterval, List.cons_append, sweepAux]
    rw [if_pos (le_refl a)]
    rw [max_eq_right (le_of_lt hx.1)]
    exact ih x b u rest (le_of_lt hx.2) hxs hsort.tail

theorem sweep_chain_first (cuts : List Int) (a b : Int) (rest : List (Int × Int))
    (hab : a ≤ b) (hcuts : ∀ x ∈ cuts, a < x ∧ x < b) (hsort : cuts.Sorted (· < ·)) :
    sweep (splitInterval a b cuts ++ rest) = sweepAux (a, b) rest := by
  cases cuts with
  | nil => rfl
  | cons x xs =>
    have hx := hcuts x (List.mem_cons_self _ _)
    have hxs : ∀ v ∈ xs, x < v ∧ v < b := by
      intro v hv
      exact ⟨(List.rel_of_sorted_cons hsort) v hv, (hcuts v (List.mem_cons_of_mem x hv)).2⟩
    simp only [splitInterval, List.cons_append, sweep]
    exact sweepAux_chain xs x b a rest (le_of_lt hx.2) hxs hsort.tail

theorem sweepAux_chain_skip (cuts : List Int) (a b : Int) (cur : Int × Int)
    (rest : List (Int × Int)) (hab : a ≤ b)
    (hcuts : ∀ x ∈ cuts, a < x ∧ x < b) (hsort : cuts.Sorted (· < ·))
    (hgap : cur.2 < a) :
    sweepAux cur (splitInterval a b cuts ++ rest) = cur :: sweepAux (a, b) rest := by
  cases cuts with
  | nil =>
    simp only [splitInterval, List.cons_append, sweepAux]
    rw [if_neg (by omega)]
    rfl
  | cons x xs =>
    have hx := hcuts x (List.mem_cons_self _ _)
    have hxs : ∀ v ∈ xs, x < v ∧ v < b := by
      intro v hv
      exact ⟨(List.rel_of_sorted_cons hsort) v hv, (hcuts v (List.mem_cons_of_mem x hv)).2⟩
    simp only [splitInterval, List.cons_append, sweepAux]
    rw [if_neg (by omega)]
    simp only [List.append_eq]
    rw [sweepAux_chain xs x b a rest (le_of_lt hx.2) hxs hsort.tail]

theorem sweepAux_chains (g : Int × Int → List Int) :
    ∀ (M : List (Int × Int)) (cur : Int × Int),
      (∀ p ∈ M, p.1 ≤ p.2) →
      (∀ p ∈ M, (g p).Sorted (· < ·) ∧ ∀ x ∈ g p, p.1 < x ∧ x < p.2) →
      M.Chain' (fun p q => p.2 < q.1) →
      (∀ q ∈ M.head?, cur.2 < q.1) →
      sweepAux cur (M.flatMap (fun p => splitInterval p.1 p.2 (g p))) = cur :: M := by
  intro M
  induction M with
  | nil => intro cur _ _ _ _; simp [sweepAux]
  | cons q M2 ih =>
    intro cur hlh hg hch hgap
    have hq : q.1 ≤ q.2 := hlh q (List.mem_cons_self _ _)
    have hgq := hg q (List.mem_cons_self _ _)
    have hgap2 : cur.2 < q.1 := hgap q (by simp)
    simp only [List.flatMap_cons]
    rw [sweepAux_chain_skip (g q) q.1 q.2 cur _ hq hgq.2 hgq.1 hgap2]
    congr 1
    have hih := ih (q.1, q.2) (fun p hp => hlh p (List.mem_cons_of_mem q hp))
      (fun p hp => hg p (List.mem_cons_of_mem q hp)) hch.tail ?_
    · exact hih
    · intro r hr
      cases M2 with
      | nil => simp at hr
      | cons r2 M3 =>
        simp only [List.head?_cons, Option.mem_def, Option.some.injEq] at hr
        subst hr
        exact List.chain'_cons.mp hch |>.1

theorem sweep_chains (g : Int × Int → List Int) (M : List (Int × Int))
    (hlh : ∀ p ∈ M, p.1 ≤ p.2)
    (hg : ∀ p ∈ M, (g p).Sorted (· < ·) ∧ ∀ x ∈ g p, p.1 < x ∧ x < p.2)
    (hch : M.Chain' (fun p q => p.2 < q.1)) :
    sweep (M.flatMap (fun p => splitInterval p.1 p.2 (g p))) = M := by
  cases M with
  | nil => rfl
  | cons q M2 =>
    have hq : q.1 ≤ q.2 := hlh q (List.mem_cons_self _ _)
    have hgq := hg q (List.mem_cons_self _ _)
    simp only [List.flatMap_cons]
    rw [sweep_chain_first (g q) q.1 q.2 _ hq hgq.2 hgq.1]
    have := sweepAux_chains g M2 (q.1, q.2)
      (fun p hp => hlh p (List.mem_cons_of_mem q hp))
      (fun p hp => hg p (List.mem_cons_of_mem q hp)) hch.tail ?_
    · rw [this]
    · intro r hr
      cases M2 with
      | nil => simp at hr
      | cons r2 M3 =>
        simp only [List.head?_cons, Option.mem_def, Option.some.injEq] at hr
        subst hr
        exact List.chain'_cons.mp hch |>.1

theorem flatMap_chains_sorted (g : Int × Int → List Int) (M : List (Int × Int))
    (hlh : ∀ p ∈ M, p.1 ≤ p.2)
    (hg : ∀ p ∈ M, (g p).Sorted (· < ·) ∧ ∀ x ∈ g p, p.1 < x ∧ x < p.2)
    (hpw : M.Pairwise (fun p q => p.2 < q.1)) :
    (M.flatMap (fun p => splitInterval p.1 p.2 (g p))).Sorted leFst := by
  induction M with
  | nil => simp [List.Sorted]
  | cons q M2 ih =>
    have hq : q.1 ≤ q.2 := hlh q (List.mem_cons_self _ _)
    have hgq := hg q (List.mem_cons_self _ _)
    simp only [List.flatMap_cons]
    rw [List.Sorted, List.pairwise_append]
    refine ⟨splitInterval_sorted (g q) q.1 q.2 hq hgq.2 hgq.1, ?_, ?_⟩
    · exact ih (fun p hp => hlh p (List.mem_cons_of_mem q hp))
        (fun p hp => hg p (List.mem_cons_of_mem q hp)) hpw.tail
    · intro p hp p2 hp2
      have hb1 := splitInterval_bounds (g q) q.1 q.2 hq hgq.2 hgq.1 p hp
      simp only [List.mem_flatMap] at hp2
      obtain ⟨r, hr, hmem⟩ := hp2
      have hrq : q.2 < r.1 := List.rel_of_pairwise_cons hpw hr
      have hr12 : r.1 ≤ r.2 := hlh r (List.mem_cons_of_mem q hr)
      have hgr := hg r (List.mem_cons_of_mem q hr)
      have hb2 := splitInterval_bounds (g r) r.1 r.2 hr12 hgr.2 hgr.1 p2 hmem
      show p.1 ≤ p2.1
      omega

theorem flatMap_chains_cov (g : Int × Int → List Int) (M : List (Int × Int))
    (hlh : ∀ p ∈ M, p.1 ≤ p.2)
    (hg : ∀ p ∈ M, (g p).Sorted (· < ·) ∧ ∀ x ∈ g p, p.1 < x ∧ x < p.2) :
    ∀ y, coversAt (M.flatMap (fun p => splitInterval p.1 p.2 (g p))) y ↔ coversAt M y := by
  intro y
  simp only [coversAt, List.mem_flatMap]
  constructor
  · intro h
    obtain ⟨p, ⟨r, hr, hmem⟩, hcov⟩ := h
    have hr12 : r.1 ≤ r.2 := hlh r hr
    have hgr := hg r hr
    have := (splitInterval_cov (g r) r.1 r.2 hr12 hgr.2 hgr.1 y).mp ⟨p, hmem, hcov⟩
    exact ⟨r, hr, this⟩
  · intro h
    obtain ⟨r, hr, hcov⟩ := h
    have hr12 : r.1 ≤ r.2 := hlh r hr
    have hgr := hg r hr
    obtain ⟨p, hmem, hcov2⟩ := (splitInterval_cov (g r) r.1 r.2 hr12 hgr.2 hgr.1 y).mpr hcov
    exact ⟨p, ⟨r, hr, hmem⟩, hcov2⟩

/-! ## Properties of the normalized spans -/

theorem cutsIn_strict (l : List SchObj) (d : Bool) (c lo hi : Int) :
    (cutsIn l d c lo hi).Sorted (· < ·) :=
  sortedDedup_strict _

theorem cutsIn_bounds (l : List SchObj) (d : Bool) (c lo hi : Int) :
    ∀ x ∈ cutsIn l d c lo hi, lo < x ∧ x < hi := by
  intro x hx
  rw [cutsIn, mem_sortedDedup, List.mem_filter] at hx
  simpa using hx.2

theorem sweep_intervals_lohi (l : List SchObj) (d : Bool) (c : Int) :
    ∀ p ∈ sweep (intervalsAt l d c), p.1 ≤ p.2 := by
  intro p hp
  cases hI : intervalsAt l d c with
  | nil => rw [hI] at hp; simp [sweep] at hp
  | cons x xs =>
    rw [hI] at hp
    have hlh := intervalsAt_lohi l d c
    rw [hI] at hlh
    exact sweepAux_lohi xs x (hlh x (List.mem_cons_self _ _))
      (fun q hq => hlh q (List.mem_cons_of_mem _ hq)) p hp

theorem sweep_intervals_gap (l : List SchObj) (d : Bool) (c : Int) :
    (sweep (intervalsAt l d c)).Chain' (fun p q => p.2 < q.1) := by
  cases hI : intervalsAt l d c with
  | nil => simp [sweep]
  | cons x xs =>
    have hlh := intervalsAt_lohi l d c
    have hs := intervalsAt_sorted l d c
    rw [hI] at hlh hs
    exact sweepAux_gap xs x hs (hlh x (List.mem_cons_self _ _))
      (fun q hq => hlh q (List.mem_cons_of_mem _ hq))

theorem sweep_intervals_cov (l : List SchObj) (d : Bool) (c : Int) :
    ∀ y, coversAt (sweep (intervalsAt l d c)) y ↔ coversAt (intervalsAt l d c) y := by
  intro y
  cases hI : intervalsAt l d c with
  | nil => simp [sweep]
  | cons x xs =>
    have hlh := intervalsAt_lohi l d c
    have hs := intervalsAt_sorted l d c
    rw [hI] at hlh hs
    rw [sweep]
    rw [sweepAux_cov xs x hs (hlh x (List.mem_cons_self _ _))
      (fun q hq => hlh q (List.mem_cons_of_mem _ hq)) y]
    simp only [coversAt, List.mem_cons]
    constructor
    · intro h
      rcases h with h | ⟨p, hp, hcov⟩
      · exact ⟨x, Or.inl rfl, h⟩
      · exact ⟨p, Or.inr hp, hcov⟩
    · intro h
      obtain ⟨p, hp | hp, hcov⟩ := h
      · subst hp; exact Or.inl hcov
      · exact Or.inr ⟨p, hp, hcov⟩

theorem cutsIn_good (l : List SchObj) (d : Bool) (c : Int) :
    ∀ p ∈ sweep (intervalsAt l d c),
      (cutsIn l d c p.1 p.2).Sorted (· < ·) ∧
      ∀ x ∈ cutsIn l d c p.1 p.2, p.1 < x ∧ x < p.2 := by
  intro p _
  exact ⟨cutsIn_strict l d c p.1 p.2, cutsIn_bounds l d c p.1 p.2⟩

theorem piecesAt_lohi (l : List SchObj) (d : Bool) (c : Int) :
    ∀ p ∈ piecesAt l d c, p.1 ≤ p.2 := by
  intro p hp
  simp only [piecesAt, List.mem_flatMap] at hp
  obtain ⟨r, hr, hmem⟩ := hp
  have hr12 := sweep_intervals_lohi l d c r hr
  have hg := cutsIn_good l d c r hr
  exact (splitInterval_bounds _ r.1 r.2 hr12 hg.2 hg.1 p hmem).2.1

theorem piecesAt_sorted (l : List SchObj) (d : Bool) (c : Int) :
    (piecesAt l d c).Sorted leFst := by
  unfold piecesAt
  exact flatMap_chains_sorted _ _ (sweep_intervals_lohi l d c) (cutsIn_good l d c)
    (chain_gap_pairwise _ (sweep_intervals_lohi l d c) (sweep_intervals_gap l d c))

theorem piecesAt_cov (l : List SchObj) (d : Bool) (c : Int) :
    ∀ y, coversAt (piecesAt l d c) y ↔ coversAt (intervalsAt l d c) y := by
  intro y
  unfold piecesAt
  rw [flatMap_chains_cov _ _ (sweep_intervals_lohi l d c) (cutsIn_good l d c) y]
  exact sweep_intervals_cov l d c y

theorem sweep_pieces (l : List SchObj) (d : Bool) (c : Int) :
    sweep (piecesAt l d c) = sweep (intervalsAt l d c) := by
  unfold piecesAt
  exact sweep_chains _ _ (sweep_intervals_lohi l d c) (cutsIn_good l d c)
    (sweep_intervals_gap l d c)

theorem piecesAt_ne_nil (l : List SchObj) (d : Bool) (c : Int)
    (h : intervalsAt l d c ≠ []) : piecesAt l d c ≠ [] := by
  cases hI : intervalsAt l d c with
  | nil => exact absurd hI h
  | cons x xs =>
    simp only [piecesAt, hI, sweep]
    obtain ⟨v, rest, hr⟩ := sweepAux_fst xs x
    rw [hr]
    simp only [List.flatMap_cons, ne_eq, List.append_eq_nil]
    intro hcon
    exact splitInterval_ne_nil _ _ _ hcon.1

/-! ## Membership characterizations -/

theorem mem_linesOf (l : List SchObj) (d : Bool) (c : Int) :
    c ∈ linesOf l d ↔ ∃ w ∈ wiresOn l d, w.1 = c := by
  rw [linesOf, mem_sortedDedup, List.mem_map]

theorem covers_intervalsAt_iff (l : List SchObj) (d : Bool) (c : Int) :
    ∀ y, coversAt (intervalsAt l d c) y ↔ lineCovers l d c y := by
  intro y
  simp only [coversAt, intervalsAt, List.mem_insertionSort, List.mem_filterMap,
    lineCovers]
  constructor
  · intro h
    obtain ⟨p, ⟨w, hw, hsel⟩, hcov⟩ := h
    by_cases hc : w.1 = c
    · rw [if_pos hc] at hsel
      cases hsel
      exact ⟨w, hw, hc, hcov⟩
    · rw [if_neg hc] at hsel; exact absurd hsel (by simp)
  · intro h
    obtain ⟨w, hw, hc, hcov⟩ := h
    exact ⟨(w.2.1, w.2.2), ⟨w, hw, by rw [if_pos hc]⟩, hcov⟩

theorem intervalsAt_eq_nil_of_not_line (l : List SchObj) (d : Bool) (c : Int)
    (h : c ∉ linesOf l d) : intervalsAt l d c = [] := by
  have hnone : ∀ w ∈ wiresOn l d,
      (if w.1 = c then some (w.2.1, w.2.2) else none) = none := by
    intro w hw
    rw [if_neg]
    intro hc
    exact h ((mem_linesOf l d c).mpr ⟨w, hw, hc⟩)
  have : (wiresOn l d).filterMap
      (fun w => if w.1 = c then some (w.2.1, w.2.2) else none) = [] := by
    rw [List.filterMap_eq_nil_iff]
    exact hnone
  rw [intervalsAt, this]
  rfl

theorem intervalsAt_ne_nil_of_line (l : List SchObj) (d : Bool) (c : Int)
    (h : c ∈ linesOf l d) : intervalsAt l d c ≠ [] := by
  obtain ⟨w, hw, hc⟩ := (mem_linesOf l d c).mp h
  intro hcon
  have : (w.2.1, w.2.2) ∈ intervalsAt l d c := by
    simp only [intervalsAt, List.mem_insertionSort, List.mem_filterMap]
    exact ⟨w, hw, by rw [if_pos hc]⟩
  rw [hcon] at this
  simp at this

/-! ## Effect of normalization on the object classes -/

theorem mem_rebuilt_shape (l : List SchObj) (d : Bool) (o : SchObj)
    (h : o ∈ rebuiltWires l d) :
    ∃ c ab, c ∈ linesOf l d ∧ ab ∈ piecesAt l d c ∧
      o = SchObj.wire d c ab.1 ab.2 false := by
  simp only [rebuiltWires, List.mem_flatMap, List.mem_map] at h
  obtain ⟨c, hc, ab, hab, ho⟩ := h
  exact ⟨c, ab, hc, hab, ho.symm⟩

theorem inertPart_normalize (l : List SchObj) :
    inertPart (normalizeScreen l) = inertPart l := by
  unfold normalizeScreen inertPart
  rw [List.filter_append, List.filter_append]
  have h1 : (l.filter isInert).filter isInert = l.filter isInert := by
    rw [List.filter_filter]
    apply List.filter_congr
    intro o _
    cases h : isInert o <;> simp [h]
  have h2 : ∀ d, (rebuiltWires l d).filter isInert = [] := by
    intro d
    rw [List.filter_eq_nil_iff]
    intro o ho
    obtain ⟨c, ab, _, _, rfl⟩ := mem_rebuilt_shape l d o ho
    simp [isInert]
  rw [h1, h2, h2]
  simp

theorem wiresOn_inert (l : List SchObj) (d : Bool) :
    wiresOn (inertPart l) d = [] := by
  rw [wiresOn, List.filterMap_eq_nil_iff]
  intro o ho
  rw [inertPart, List.mem_filter] at ho
  cases o with
  | wire d2 c a b s =>
    have : s = true := by simpa [isInert] using ho.2
    subst this
    simp [toWire]
  | junction x y => simp [toWire]
  | mark x y => simp [toWire]
  | other t => simp [toWire]

theorem filterMap_toWire_map (d : Bool) (c : Int) (ps : List (Int × Int))
    (hlh : ∀ p ∈ ps, p.1 ≤ p.2) :
    List.filterMap (toWire d) (ps.map (fun ab => SchObj.wire d c ab.1 ab.2 false)) =
      ps.map (fun ab => (c, ab.1, ab.2)) := by
  induction ps with
  | nil => rfl
  | cons p ps ih =>
    have hp := hlh p (List.mem_cons_self _ _)
    simp only [List.map_cons, List.filterMap_cons]
    have : toWire d (SchObj.wire d c p.1 p.2 false) = some (c, p.1, p.2) := by
      simp [toWire, min_eq_left hp, max_eq_right hp]
    rw [this, ih (fun q hq => hlh q (List.mem_cons_of_mem _ hq))]

theorem wiresOn_rebuilt_same (l : List SchObj) (d : Bool) :
    wiresOn (rebuiltWires l d) d =
      (linesOf l d).flatMap (fun c => (piecesAt l d c).map (fun ab => (c, ab.1, ab.2))) := by
  rw [wiresOn, rebuiltWires, List.filterMap_flatMap]
  apply List.flatMap_congr
  intro c _
  exact filterMap_toWire_map d c (piecesAt l d c) (piecesAt_lohi l d c)

theorem wiresOn_rebuilt_other (l : List SchObj) (d d2 : Bool) (hne : d2 ≠ d) :
    wiresOn (rebuiltWires l d2) d = [] := by
  rw [wiresOn, List.filterMap_eq_nil_iff]
  intro o ho
  obtain ⟨c, ab, _, _, rfl⟩ := mem_rebuilt_shape l d2 o ho
  simp only [toWire]
  rw [if_neg]
  intro hcon
  exact hne hcon.1

theorem wiresOn_normalize (l : List SchObj) (d : Bool) :
    wiresOn (normalizeScreen l) d =
      (linesOf l d).flatMap (fun c => (piecesAt l d c).map (fun ab => (c, ab.1, ab.2))) := by
  unfold normalizeScreen
  have happ : wiresOn (inertPart l ++ rebuiltWires l true ++ rebuiltWires l false) d =
      wiresOn (inertPart l) d ++ wiresOn (rebuiltWires l true) d ++
        wiresOn (rebuiltWires l false) d := by
    rw [wiresOn, List.filterMap_append, List.filterMap_append]
    rfl
  rw [happ, wiresOn_inert]
  cases d with
  | true =>
    rw [wiresOn_rebuilt_same, wiresOn_rebuilt_other l true false (by simp)]
    simp
  | false =>
    rw [wiresOn_rebuilt_same, wiresOn_rebuilt_other l false true (by simp)]
    simp

/-! ## Invariance of lines, coverage and cuts under normalization -/

theorem piecesAt_eq_nil_of_not_line (l : List SchObj) (d : Bool) (c : Int)
    (h : c ∉ linesOf l d) : piecesAt l d c = [] := by
  rw [piecesAt, intervalsAt_eq_nil_of_not_line l d c h]
  rfl

theorem mem_linesOf_normalize (l : List SchObj) (d : Bool) (c : Int) :
    c ∈ linesOf (normalizeScreen l) d ↔ c ∈ linesOf l d := by
  rw [mem_linesOf, wiresOn_normalize]
  constructor
  · intro h
    obtain ⟨w, hw, hc⟩ := h
    simp only [List.mem_flatMap, List.mem_map] at hw
    obtain ⟨c2, hc2, ab, _, hab2⟩ := hw
    have : w.1 = c2 := by rw [← hab2]
    rw [this] at hc
    exact hc ▸ hc2
  · intro h
    have hne := piecesAt_ne_nil l d c (intervalsAt_ne_nil_of_line l d c h)
    obtain ⟨ab, hab⟩ := List.exists_mem_of_ne_nil _ hne
    refine ⟨(c, ab.1, ab.2), ?_, rfl⟩
    simp only [List.mem_flatMap, List.mem_map]
    exact ⟨c, h, ab, hab, rfl⟩

theorem linesOf_normalize (l : List SchObj) (d : Bool) :
    linesOf (normalizeScreen l) d = linesOf l d := by
  refine sorted_nodup_ext _ _ (sortedDedup_sorted _) (sortedDedup_nodup _)
    (sortedDedup_sorted _) (sortedDedup_nodup _) (fun c => ?_)
  exact mem_linesOf_normalize l d c

theorem lineCovers_normalize (l : List SchObj) (d : Bool) (x y : Int) :
    lineCovers (normalizeScreen l) d x y ↔ lineCovers l d x y := by
  constructor
  · intro h
    obtain ⟨w, hw, hx, hcov⟩ := h
    rw [wiresOn_normalize] at hw
    simp only [List.mem_flatMap, List.mem_map] at hw
    obtain ⟨c2, hc2, ab, hab, hab2⟩ := hw
    have he1 : w.1 = c2 := by rw [← hab2]
    have he2 : w.2.1 = ab.1 := by rw [← hab2]
    have he3 : w.2.2 = ab.2 := by rw [← hab2]
    have hcx : c2 = x := by rw [← he1, hx]
    subst hcx
    have hcovp : coversAt (piecesAt l d c2) y := by
      refine ⟨ab, hab, ?_, ?_⟩
      · rw [← he2]; exact hcov.1
      · rw [← he3]; exact hcov.2
    have := (piecesAt_cov l d c2 y).mp hcovp
    exact (covers_intervalsAt_iff l d c2 y).mp this
  · intro h
    have hline : x ∈ linesOf l d := by
      obtain ⟨w, hw, hx, _⟩ := h
      exact (mem_linesOf l d x).mpr ⟨w, hw, hx⟩
    have hcovp : coversAt (piecesAt l d x) y :=
      (piecesAt_cov l d x y).mpr ((covers_intervalsAt_iff l d x y).mpr h)
    obtain ⟨ab, hab, hcov⟩ := hcovp
    refine ⟨(x, ab.1, ab.2), ?_, rfl, hcov⟩
    rw [wiresOn_normalize]
    simp only [List.mem_flatMap, List.mem_map]
    exact ⟨x, hline, ab, hab, rfl⟩

theorem mem_normalize_inert (l : List SchObj) (o : SchObj) (ho : isInert o = true) :
    o ∈ normalizeScreen l ↔ o ∈ l := by
  unfold normalizeScreen
  simp only [List.mem_append]
  constructor
  · intro h
    rcases h with (h | h) | h
    · exact (List.mem_filter.mp h).1
    · obtain ⟨c, ab, _, _, rfl⟩ := mem_rebuilt_shape l true o h
      simp [isInert] at ho
    · obtain ⟨c, ab, _, _, rfl⟩ := mem_rebuilt_shape l false o h
      simp [isInert] at ho
  · intro h
    exact Or.inl (Or.inl (List.mem_filter.mpr ⟨h, ho⟩))

theorem cut_wire_unsel_iff (l : List SchObj) (d : Bool) (c x : Int) :
    (∃ a b, SchObj.wire (!d) x a b false ∈ l ∧ min a b ≤ c ∧ c ≤ max a b) ↔
      lineCovers l (!d) x c := by
  constructor
  · intro h
    obtain ⟨a, b, hmem, h1, h2⟩ := h
    refine ⟨(x, min a b, max a b), ?_, rfl, h1, h2⟩
    rw [wiresOn, List.mem_filterMap]
    refine ⟨SchObj.wire (!d) x a b false, hmem, ?_⟩
    simp [toWire]
  · intro h
    obtain ⟨w, hw, hx, h1, h2⟩ := h
    rw [wiresOn, List.mem_filterMap] at hw
    obtain ⟨o, ho, hto⟩ := hw
    cases o with
    | wire d2 c2 a b s =>
      simp only [toWire] at hto
      by_cases hcen : d2 = !d ∧ s = false
      · rw [if_pos hcen] at hto
        obtain ⟨rfl, rfl⟩ := hcen
        cases hto
        have hx2 : c2 = x := by simpa using hx
        subst hx2
        refine ⟨a, b, ho, ?_, ?_⟩
        · simpa using h1
        · simpa using h2
      · rw [if_neg hcen] at hto; exact absurd hto (by simp)
    | junction x0 y0 => exact absurd hto (by simp [toWire])
    | mark x0 y0 => exact absurd hto (by simp [toWire])
    | other t => exact absurd hto (by simp [toWire])

theorem mem_cutCands_iff (l : List SchObj) (d : Bool) (c x : Int) :
    x ∈ cutCands l d c ↔
      ((if d then SchObj.junction x c else SchObj.junction c x) ∈ l ∨
       (if d then SchObj.mark x c else SchObj.mark c x) ∈ l ∨
       (∃ a b, SchObj.wire (!d) x a b true ∈ l ∧ min a b ≤ c ∧ c ≤ max a b) ∨
       lineCovers l (!d) x c) := by
  rw [← cut_wire_unsel_iff]
  rw [cutCands, List.mem_filterMap]
  constructor
  · intro h
    obtain ⟨o, ho, hto⟩ := h
    cases o with
    | junction x0 y0 =>
      cases d with
      | true =>
        simp only [toCut, if_true] at hto
        by_cases hy : y0 = c
        · rw [if_pos hy] at hto
          cases hto
          subst hy
          exact Or.inl (by simpa using ho)
        · rw [if_neg hy] at hto; exact absurd hto (by simp)
      | false =>
        simp only [toCut, Bool.false_eq_true, if_false] at hto
        by_cases hy : x0 = c
        · rw [if_pos hy] at hto
          cases hto
          subst hy
          exact Or.inl (by simpa using ho)
        · rw [if_neg hy] at hto; exact absurd hto (by simp)
    | mark x0 y0 =>
      cases d with
      | true =>
        simp only [toCut, if_true] at hto
        by_cases hy : y0 = c
        · rw [if_pos hy] at hto
          cases hto
          subst hy
          exact Or.inr (Or.inl (by simpa using ho))
        · rw [if_neg hy] at hto; exact absurd hto (by simp)
      | false =>
        simp only [toCut, Bool.false_eq_true, if_false] at hto
        by_cases hy : x0 = c
        · rw [if_pos hy] at hto
          cases hto
          subst hy
          exact Or.inr (Or.inl (by simpa using ho))
        · rw [if_neg hy] at hto; exact absurd hto (by simp)
    | wire d2 c2 a b s =>
      simp only [toCut] at hto
      by_cases hcen : d2 = !d ∧ min a b ≤ c ∧ c ≤ max a b
      · rw [if_pos hcen] at hto
        cases hto
        obtain ⟨rfl, h1, h2⟩ := hcen
        cases s with
        | true => exact Or.inr (Or.inr (Or.inl ⟨a, b, ho, h1, h2⟩))
        | false => exact Or.inr (Or.inr (Or.inr ⟨a, b, ho, h1, h2⟩))
      · rw [if_neg hcen] at hto; exact absurd hto (by simp)
    | other t => exact absurd hto (by simp [toCut])
  · intro h
    rcases h with h | h | ⟨a, b, hmem, h1, h2⟩ | ⟨a, b, hmem, h1, h2⟩
    · cases d with
      | true =>
        refine ⟨SchObj.junction x c, by simpa using h, ?_⟩
        simp [toCut]
      | false =>
        refine ⟨SchObj.junction c x, by simpa using h, ?_⟩
        simp [toCut]
    · cases d with
      | true =>
        refine ⟨SchObj.mark x c, by simpa using h, ?_⟩
        simp [toCut]
      | false =>
        refine ⟨SchObj.mark c x, by simpa using h, ?_⟩
        simp [toCut]
    · refine ⟨SchObj.wire (!d) x a b true, hmem, ?_⟩
      simp [toCut, h1, h2]
    · refine ⟨SchObj.wire (!d) x a b false, hmem, ?_⟩
      simp [toCut, h1, h2]

theorem cutCands_normalize_mem (l : List SchObj) (d : Bool) (c x : Int) :
    x ∈ cutCands (normalizeScreen l) d c ↔ x ∈ cutCands l d c := by
  rw [mem_cutCands_iff, mem_cutCands_iff]
  have hj : (if d then SchObj.junction x c else SchObj.junction c x) ∈ normalizeScreen l ↔
      (if d then SchObj.junction x c else SchObj.junction c x) ∈ l := by
    apply mem_normalize_inert
    cases d <;> simp [isInert]
  have hmk : (if d then SchObj.mark x c else SchObj.mark c x) ∈ normalizeScreen l ↔
      (if d then SchObj.mark x c else SchObj.mark c x) ∈ l := by
    apply mem_normalize_inert
    cases d <;> simp [isInert]
  have hsel : ∀ a b : Int, (SchObj.wire (!d) x a b true ∈ normalizeScreen l ↔
      SchObj.wire (!d) x a b true ∈ l) := by
    intro a b
    apply mem_normalize_inert
    simp [isInert]
  rw [hj, hmk, lineCovers_normalize]
  constructor
  · intro h
    rcases h with h | h | ⟨a, b, hmem, h1, h2⟩ | h
    · exact Or.inl h
    · exact Or.inr (Or.inl h)
    · exact Or.inr (Or.inr (Or.inl ⟨a, b, (hsel a b).mp hmem, h1, h2⟩))
    · exact Or.inr (Or.inr (Or.inr h))
  · intro h
    rcases h with h | h | ⟨a, b, hmem, h1, h2⟩ | h
    · exact Or.inl h
    · exact Or.inr (Or.inl h)
    · exact Or.inr (Or.inr (Or.inl ⟨a, b, (hsel a b).mpr hmem, h1, h2⟩))
    · exact Or.inr (Or.inr (Or.inr h))

theorem cutsIn_normalize (l : List SchObj) (d : Bool) (c lo hi : Int) :
    cutsIn (normalizeScreen l) d c lo hi = cutsIn l d c lo hi := by
  unfold cutsIn
  apply sortedDedup_ext
  intro x
  rw [List.mem_filter, List.mem_filter, cutCands_normalize_mem]

/-! ## Round-two intervals collapse to the pieces -/

theorem map_pair_eta (ps : List (Int × Int)) :
    ps.map (fun ab => (ab.1, ab.2)) = ps := by
  induction ps with
  | nil => rfl
  | cons p ps ih => simp [ih]

theorem filterMap_lineSelect (cTarget c2 : Int) (ps : List (Int × Int)) :
    List.filterMap (fun w : Int × Int × Int =>
        if w.1 = cTarget then some (w.2.1, w.2.2) else none)
      (ps.map (fun ab => (c2, ab.1, ab.2))) =
      if c2 = cTarget then ps else [] := by
  induction ps with
  | nil => simp
  | cons p ps ih =>
    by_cases hc : c2 = cTarget
    · subst hc
      simp only [if_pos rfl] at ih
      simp [ih]
    · simp only [if_neg hc] at ih
      simp [ih, hc]

theorem flatMap_lineSelect (cTarget : Int) (lines : List Int)
    (F : Int → List (Int × Int)) (hnd : lines.Nodup) :
    lines.flatMap (fun c2 => if c2 = cTarget then F c2 else []) =
      if cTarget ∈ lines then F cTarget else [] := by
  induction lines with
  | nil => simp
  | cons c2 rest ih =>
    simp only [List.flatMap_cons]
    by_cases hc : c2 = cTarget
    · subst hc
      rw [if_pos rfl, if_pos (List.mem_cons_self _ _)]
      have hnotin : c2 ∉ rest := (List.nodup_cons.mp hnd).1
      have : rest.flatMap (fun c3 => if c3 = c2 then F c3 else []) = [] := by
        rw [List.flatMap_eq_nil_iff]
        intro c3 hc3
        rw [if_neg]
        intro he
        exact hnotin (he ▸ hc3)
      rw [this]
      simp
    · rw [if_neg hc, ih (List.nodup_cons.mp hnd).2]
      by_cases hmem : cTarget ∈ rest
      · rw [if_pos hmem, if_pos (List.mem_cons_of_mem c2 hmem)]
        rfl
      · rw [if_neg hmem, if_neg]
        · rfl
        · intro hcon
          rcases List.mem_cons.mp hcon with h2 | h2
          · exact hc h2.symm
          · exact hmem h2

theorem intervalsAt_normalize (l : List SchObj) (d : Bool) (c : Int) :
    intervalsAt (normalizeScreen l) d c = piecesAt l d c := by
  rw [intervalsAt, wiresOn_normalize, List.filterMap_flatMap]
  have hblocks : (linesOf l d).flatMap
      (fun c2 => List.filterMap
        (fun w : Int × Int × Int => if w.1 = c then some (w.2.1, w.2.2) else none)
        ((piecesAt l d c2).map (fun ab => (c2, ab.1, ab.2)))) =
      (linesOf l d).flatMap
        (fun c2 => if c2 = c then piecesAt l d c2 else []) := by
    apply List.flatMap_congr
    intro c2 _
    exact filterMap_lineSelect c c2 (piecesAt l d c2)
  rw [hblocks, flatMap_lineSelect c (linesOf l d) (fun c2 => piecesAt l d c2)
    (sortedDedup_nodup _)]
  by_cases hmem : c ∈ linesOf l d
  · rw [if_pos hmem]
    exact List.Sorted.insertionSort_eq (piecesAt_sorted l d c)
  · rw [if_neg hmem, piecesAt_eq_nil_of_not_line l d c hmem]
    rfl

theorem piecesAt_normalize (l : List SchObj) (d : Bool) (c : Int) :
    piecesAt (normalizeScreen l) d c = piecesAt l d c := by
  show (sweep (intervalsAt (normalizeScreen l) d c)).flatMap
      (fun ab => splitInterval ab.1 ab.2 (cutsIn (normalizeScreen l) d c ab.1 ab.2)) =
    piecesAt l d c
  rw [intervalsAt_normalize]
  have hcuts : ∀ ab : Int × Int, cutsIn (normalizeScreen l) d c ab.1 ab.2 =
      cutsIn l d c ab.1 ab.2 := fun ab => cutsIn_normalize l d c ab.1 ab.2
  have hcongr : (sweep (piecesAt l d c)).flatMap
      (fun ab => splitInterval ab.1 ab.2 (cutsIn (normalizeScreen l) d c ab.1 ab.2)) =
      (sweep (piecesAt l d c)).flatMap
        (fun ab => splitInterval ab.1 ab.2 (cutsIn l d c ab.1 ab.2)) := by
    apply List.flatMap_congr
    intro ab _
    rw [hcuts ab]
  rw [hcongr, sweep_pieces]
  show (sweep (intervalsAt l d c)).flatMap
      (fun ab => splitInterval ab.1 ab.2 (cutsIn l d c ab.1 ab.2)) = piecesAt l d c
  rfl

theorem rebuiltWires_normalize (l : List SchObj) (d : Bool) :
    rebuiltWires (normalizeScreen l) d = rebuiltWires l d := by
  unfold rebuiltWires
  rw [linesOf_normalize]
  apply List.flatMap_congr
  intro c _
  rw [piecesAt_normalize]

theorem normalizeScreen_idem (l : List SchObj) :
    normalizeScreen (normalizeScreen l) = normalizeScreen l := by
  conv_lhs => rw [normalizeScreen]
  rw [inertPart_normalize, rebuiltWires_normalize, rebuiltWires_normalize]
  rfl

/-- C2: SchematicCleanUp reports whether at least one merge or split was
performed: the flag is false precisely when the output is the same collection
of segments and objects as the input, compared up to reordering and up to
which endpoint of a wire is stored first — the only rewrites a run without
merges and splits can make.  In particular a lone wire stored with reversed
endpoints, on which no merge or split is possible, reports no change, while
merging the touching segments (0,0)-(5,0) and (5,0)-(10,0) reports one.  And
the cleanup is idempotent: a second consecutive run on the list produced by a
first run performs no structural change at all and returns false. -/
theorem schematicCleanUp_spec (l : List SchObj) :
    ((SchematicCleanUp l).2 = false ↔
      ((SchematicCleanUp l).1.map canonObj).Perm (l.map canonObj)) ∧
    (SchematicCleanUp [SchObj.wire true 0 5 0 false]).2 = false ∧
    (SchematicCleanUp
      [SchObj.wire true 0 0 5 false, SchObj.wire true 0 5 10 false]).2 = true ∧
    SchematicCleanUp (SchematicCleanUp l).1 = ((SchematicCleanUp l).1, false) := by
  refine ⟨?_, by decide, by decide, ?_⟩
  · simp [SchematicCleanUp]
  · show SchematicCleanUp (normalizeScreen l) = (normalizeScreen l, false)
    unfold SchematicCleanUp
    rw [normalizeScreen_idem]
    simp [List.Perm.refl]
